import Mathlib

/-!
Shallow embedding of the god validation library (Go): schema nodes,
nil/default/required resolution, object field-set derivation, composite
validation (object, array, tuple, union, discriminated union), and the
lazy resolver.  Schema nodes are mutable in the source (builder methods
and the lazy cache write through pointers), so the embedding uses an
explicit heap: a list of nodes addressed by position.  Validation threads
the heap and takes a fuel parameter; exhausted fuel yields none.
-/

namespace God

/-- Runtime values flowing through the validator, modelling the dynamic
Go values the library inspects by reflection.  Maps are association
lists with string keys (Go map keys are stringified on conversion);
Go structs, pointers and floating-point values are not modelled. -/
inductive GoValue where
  | nil : GoValue
  | boolV : Bool → GoValue
  | intV : Int → GoValue
  | strV : String → GoValue
  | arrV : List GoValue → GoValue
  | mapV : List (String × GoValue) → GoValue

/-- Lookup in an association list, modelling Go map indexing. -/
def alGet {α : Type} : List (String × α) → String → Option α
  | [], _ => none
  | (k, v) :: rest, key => if k = key then some v else alGet rest key

/-- Insertion/overwrite in an association list, modelling Go map assignment. -/
def alSet {α : Type} : List (String × α) → String → α → List (String × α)
  | [], key, v => [(key, v)]
  | (k, w) :: rest, key, v =>
    if k = key then (k, v) :: rest else (k, w) :: alSet rest key v

/-- Key removal, modelling the Go delete builtin. -/
def alRemove {α : Type} (m : List (String × α)) (key : String) : List (String × α) :=
  m.filter (fun p => p.1 ≠ key)

/-- Key-membership test, modelling the comma-ok map lookup. -/
def alHas {α : Type} (m : List (String × α)) (key : String) : Bool :=
  (alGet m key).isSome

/-- Rebuild an association list by Go-map-style assignment of every entry
in order; later bindings overwrite earlier ones, as in a Go map. -/
def alNormalize {α : Type} (m : List (String × α)) : List (String × α) :=
  m.foldl (fun acc p => alSet acc p.1 p.2) []

/-- ValidationError from god.go: field path, message, offending value, code. -/
structure ValidationError where
  Field : String
  Message : String
  Value : GoValue
  Code : String

/-- ValidationResult from god.go: validity flag, error list, normalized value.
The zero Value of the Go struct (a nil interface) is GoValue.nil. -/
structure ValidationResult where
  Valid : Bool
  Errors : List ValidationError
  Value : GoValue

/-- BaseSchema from god.go: the modality flags every node embeds. -/
structure BaseSchema where
  isOptional : Bool
  isRequired : Bool
  defaultValue : GoValue
  hasDefault : Bool

/-- BaseSchema with isRequired set, as every public constructor creates. -/
def newBase : BaseSchema :=
  { isOptional := false, isRequired := true, defaultValue := GoValue.nil, hasDefault := false }

/-- Test for the Go nil interface value, modelling the comparison
value == nil. -/
def GoValue.isNil : GoValue → Bool
  | GoValue.nil => true
  | _ => false

/-- BaseSchema.handleNil from god.go: given the flags and the incoming
value, return (processedValue, shouldReturn, result).  A nil value with a
default substitutes the default and continues (shouldReturn is false); a
nil value without a default short-circuits with valid-nil when optional
and with a single required error otherwise. -/
def handleNil (s : BaseSchema) (value : GoValue) : GoValue × Bool × ValidationResult :=
  if value.isNil then
    if s.hasDefault then
      (s.defaultValue, false,
        { Valid := true, Errors := [], Value := s.defaultValue })
    else if s.isOptional then
      (GoValue.nil, true, { Valid := true, Errors := [], Value := GoValue.nil })
    else if s.isRequired then
      (GoValue.nil, true,
        { Valid := false,
          Errors := [{ Field := "", Message := "field is required", Value := GoValue.nil, Code := "required" }],
          Value := GoValue.nil })
    else
      (GoValue.nil, true,
        { Valid := false,
          Errors := [{ Field := "", Message := "field is required", Value := GoValue.nil, Code := "required" }],
          Value := GoValue.nil })
  else
    (value, false, { Valid := false, Errors := [], Value := GoValue.nil })

/-- Addresses of schema nodes in the heap. -/
abbrev Addr := Nat

/-- Configuration fields of ObjectSchema from object.go, besides the
embedded BaseSchema.  The unused shape and keyof fields are omitted.
The extend map distinguishes nil from an allocated map, hence Option. -/
structure ObjectData where
  fields : List (String × Addr)
  strict : Bool
  passthrough : Bool
  catchall : Option Addr
  partialFlag : Bool
  deepPartialFlag : Bool
  required : List String
  pick : List String
  omitKeys : List String
  extend : Option (List (String × Addr))
  merge : Option Addr

/-- The schema variants of the library.  lazyK carries the address the
user-supplied constructor function returns (the constructor is modelled
as a pure thunk yielding a fixed schema address), the cached schema
(nil before first use), and an instrumentation counter of how many times
the constructor has been invoked; the counter has no effect on results. -/
inductive SchemaKind where
  | objectK : ObjectData → SchemaKind
  | arrayK : (element : Addr) → (minLength maxLength lengthExact : Option Int) →
      (nonempty : Bool) → SchemaKind
  | tupleK : (elements : List Addr) → (rest : Option Addr) → SchemaKind
  | unionK : (schemas : List Addr) → SchemaKind
  | dunionK : (discriminant : String) → (options : List (String × Addr)) → SchemaKind
  | literalK : (value : GoValue) → SchemaKind
  | enumK : (values : List GoValue) → SchemaKind
  | nullableK : (schema : Addr) → SchemaKind
  | anyK : SchemaKind
  | unknownK : SchemaKind
  | voidK : SchemaKind
  | neverK : SchemaKind
  | booleanK : SchemaKind
  | lazyK : (schemaFn : Addr) → (cached : Option Addr) → (fnCalls : Nat) → SchemaKind

/-- A schema node: the embedded BaseSchema plus the variant data. -/
structure Node where
  base : BaseSchema
  kind : SchemaKind

/-- The schema heap: nodes addressed by position.  Pointer dereference is
nodeAt, pointer-target assignment is heapSet. -/
abbrev Heap := List Node

/-- Dereference a schema address. -/
def nodeAt : Heap → Addr → Option Node
  | [], _ => none
  | n :: _, 0 => some n
  | _ :: rest, Nat.succ a => nodeAt rest a

/-- Overwrite the node stored at an address (no-op when out of range). -/
def heapSet : Heap → Addr → Node → Heap
  | [], _, _ => []
  | _ :: rest, 0, n => n :: rest
  | m :: rest, Nat.succ a, n => m :: heapSet rest a n

/-- Kind of the node at an address. -/
def kindAt (h : Heap) (a : Addr) : Option SchemaKind :=
  (nodeAt h a).map Node.kind

/-- BaseSchema of the node at an address. -/
def baseAt (h : Heap) (a : Addr) : Option BaseSchema :=
  (nodeAt h a).map Node.base

/-- Apply a function to the BaseSchema of the node at an address, in place. -/
def modifyBase (h : Heap) (a : Addr) (f : BaseSchema → BaseSchema) : Heap :=
  match nodeAt h a with
  | some n => heapSet h a { n with base := f n.base }
  | none => h

/-- BaseSchema.setOptional applied through a schema pointer: the in-place
mutation performed by every Optional() method, which then returns the
same pointer (the address is unchanged). -/
def setOptionalAt (h : Heap) (a : Addr) : Heap :=
  modifyBase h a (fun b => { b with isOptional := true, isRequired := false })

/-- BaseSchema.setRequired applied through a schema pointer: the in-place
mutation performed by every Required() method. -/
def setRequiredAt (h : Heap) (a : Addr) : Heap :=
  modifyBase h a (fun b => { b with isRequired := true, isOptional := false })

/-- The base field map of the object schema stored at an address, read
through the merge pointer (s.merge.fields in the source); empty when the
address does not hold an object, which Go's typing rules out. -/
def objectBaseFields (h : Heap) (a : Addr) : List (String × Addr) :=
  match kindAt h a with
  | some (SchemaKind.objectK d) => d.fields
  | _ => []

/-- Overlay every binding of src onto dst by Go map assignment,
overwriting on key collision. -/
def overlay (dst src : List (String × Addr)) : List (String × Addr) :=
  src.foldl (fun acc p => alSet acc p.1 p.2) dst

/-- ObjectSchema.getEffectiveFields from object.go.  Replays the recorded
directives over the base field map: copy base fields, overlay the merge
target's fields, overlay the extend fields, reduce to the picked names
that exist when pick is non-empty, delete the omitted names, mark every
remaining field optional when partial or deepPartial is set (an in-place
Optional() call on each field schema, returning the same pointer), and
finally mark the names of the required directive that exist back to
required.  The source iterates Go maps in unspecified order; the
embedding iterates the association lists in list order. -/
def getEffectiveFields (h : Heap) (d : ObjectData) : Heap × List (String × Addr) :=
  let fields := overlay [] d.fields
  let fields :=
    match d.merge with
    | some a => overlay fields (objectBaseFields h a)
    | none => fields
  let fields :=
    match d.extend with
    | some ext => overlay fields ext
    | none => fields
  let fields :=
    if d.pick.isEmpty then fields
    else
      d.pick.foldl (fun acc key =>
        match alGet fields key with
        | some schema => alSet acc key schema
        | none => acc) []
  let fields :=
    if d.omitKeys.isEmpty then fields
    else d.omitKeys.foldl (fun acc key => alRemove acc key) fields
  let step :=
    if d.partialFlag || d.deepPartialFlag then
      fields.foldl (fun (acc : Heap × List (String × Addr)) p =>
        (setOptionalAt acc.1 p.2, alSet acc.2 p.1 p.2)) (h, fields)
    else (h, fields)
  if d.required.isEmpty then step
  else
    d.required.foldl (fun (acc : Heap × List (String × Addr)) key =>
      match alGet acc.2 key with
      | some schema => (setRequiredAt acc.1 schema, alSet acc.2 key schema)
      | none => acc) step

mutual

/-- Structural equality of runtime values, modelling reflect.DeepEqual
on the modelled value domain. -/
def deepEqual : GoValue → GoValue → Bool
  | GoValue.nil, GoValue.nil => true
  | GoValue.boolV a, GoValue.boolV b => a = b
  | GoValue.intV a, GoValue.intV b => a = b
  | GoValue.strV a, GoValue.strV b => a = b
  | GoValue.arrV xs, GoValue.arrV ys => deepEqualList xs ys
  | GoValue.mapV xs, GoValue.mapV ys => deepEqualMap xs ys
  | _, _ => false

/-- Structural equality of value sequences, part of deepEqual. -/
def deepEqualList : List GoValue → List GoValue → Bool
  | [], [] => true
  | x :: xs, y :: ys => deepEqual x y && deepEqualList xs ys
  | _, _ => false

/-- Structural equality of string-keyed entry lists, part of deepEqual. -/
def deepEqualMap : List (String × GoValue) → List (String × GoValue) → Bool
  | [], [] => true
  | (k, x) :: xs, (l, y) :: ys => k = l && deepEqual x y && deepEqualMap xs ys
  | _, _ => false

end

mutual

/-- Default formatting of a runtime value, modelling fmt.Sprintf with the
%v verb as the library uses it to stringify discriminant values and
messages.  Composite values are formatted in list order (Go additionally
sorts map keys, which no claim depends on). -/
def goFormat : GoValue → String
  | GoValue.nil => "<nil>"
  | GoValue.boolV b => cond b "true" "false"
  | GoValue.intV n => toString n
  | GoValue.strV s => s
  | GoValue.arrV xs => "[" ++ goFormatList xs ++ "]"
  | GoValue.mapV m => "map[" ++ goFormatMap m ++ "]"

/-- Space-separated formatting of a value sequence, part of goFormat. -/
def goFormatList : List GoValue → String
  | [] => ""
  | [x] => goFormat x
  | x :: rest => goFormat x ++ " " ++ goFormatList rest

/-- Space-separated key:value formatting of map entries, part of goFormat. -/
def goFormatMap : List (String × GoValue) → String
  | [] => ""
  | [(k, x)] => k ++ ":" ++ goFormat x
  | (k, x) :: rest => k ++ ":" ++ goFormat x ++ " " ++ goFormatMap rest

end

/-- Membership test over the enum values by DeepEqual, modelling the loop
in EnumSchema.Validate. -/
def enumHas : List GoValue → GoValue → Bool
  | [], _ => false
  | v :: rest, pv => if deepEqual pv v then true else enumHas rest pv

/-- convertToBoolean from the boolean leaf validator: accepts Go bools,
boolean-like strings (strconv.ParseBool on the lowercased string, plus
yes/y/no/n), and the integers 0 and 1.  The unsigned and floating-point
reflection cases have no counterpart in the modelled value domain. -/
def convertToBoolean : GoValue → Bool × Bool
  | GoValue.boolV b => (b, true)
  | GoValue.strV s =>
    let sl := s.toLower
    if sl = "1" ∨ sl = "t" ∨ sl = "true" then (true, true)
    else if sl = "0" ∨ sl = "f" ∨ sl = "false" then (false, true)
    else if sl = "yes" ∨ sl = "y" then (true, true)
    else if sl = "no" ∨ sl = "n" then (false, true)
    else (false, false)
  | GoValue.intV i => if i = 0 then (false, true) else if i = 1 then (true, true) else (false, false)
  | _ => (false, false)

/-- A validation step: the shape of Schema.Validate with the heap
threaded through and fuel already fixed. -/
abbrev Validator := Heap → Addr → GoValue → Option (Heap × ValidationResult)

/-- Re-tag a list of child errors with a new field path segment, as the
composite validators do before appending them. -/
def retag (field : String) (errs : List ValidationError) : List ValidationError :=
  errs.map (fun e => { e with Field := field })

/-- A failing result carrying exactly one error with empty field path. -/
def singleError (message : String) (value : GoValue) (code : String) : ValidationResult :=
  { Valid := false,
    Errors := [{ Field := "", Message := message, Value := value, Code := code }],
    Value := GoValue.nil }

/-- A valid result carrying a normalized value. -/
def validResult (value : GoValue) : ValidationResult :=
  { Valid := true, Errors := [], Value := value }

/-- The result NeverSchema.Validate always returns, without consulting
handleNil. -/
def neverResult (value : GoValue) : ValidationResult :=
  { Valid := false,
    Errors := [{ Field := "", Message := "never type should never be used",
                 Value := value, Code := "invalid_type" }],
    Value := GoValue.nil }

/-- Conversion of the input to a string-keyed record, modelling the
reflection switch shared by Object and DiscriminatedUnion validation:
maps are rebuilt by convertMapToStringInterface (keys are already
strings here), anything else is rejected; Go structs and pointers are
outside the modelled value domain. -/
def toObjMap : GoValue → Option (List (String × GoValue))
  | GoValue.mapV m => some (alNormalize m)
  | _ => none

/-- The summary message of a failed plain union. -/
def unionNoMatchMsg (n : Nat) : String :=
  "value does not match any of the union types (" ++ toString n ++ " alternatives tried)"

/-- The loop of UnionSchema.Validate: try each alternative in declaration
order, stop at the first valid outcome, collect re-tagged errors of
failing alternatives along the way. -/
def unionLoop (v : Validator) (pv : GoValue) :
    Heap → List Addr → Nat → List ValidationError →
    Option (Heap × Option ValidationResult × List ValidationError)
  | h, [], _, acc => some (h, none, acc)
  | h, a :: rest, i, acc =>
    match v h a pv with
    | none => none
    | some (h2, r) =>
      if r.Valid then some (h2, some r, acc)
      else unionLoop v pv h2 rest (i + 1) (acc ++ retag ("union[" ++ toString i ++ "]") r.Errors)

/-- The known-fields loop of ObjectSchema.Validate: validate every
effective field against the corresponding input entry (nil when absent),
re-tag and collect errors of failing fields, and store valid non-nil
normalized values under the field name. -/
def objectFieldsLoop (v : Validator) (objMap : List (String × GoValue)) :
    Heap → List (String × Addr) → List ValidationError → List (String × GoValue) →
    Option (Heap × List ValidationError × List (String × GoValue))
  | h, [], errs, obj => some (h, errs, obj)
  | h, (fieldName, fieldSchema) :: rest, errs, obj =>
    let fieldValue :=
      match alGet objMap fieldName with
      | some fv => fv
      | none => GoValue.nil
    match v h fieldSchema fieldValue with
    | none => none
    | some (h2, r) =>
      if r.Valid then
        if r.Value.isNil then objectFieldsLoop v objMap h2 rest errs obj
        else objectFieldsLoop v objMap h2 rest errs (alSet obj fieldName r.Value)
      else objectFieldsLoop v objMap h2 rest (errs ++ retag fieldName r.Errors) obj

/-- The unknown-fields loop of ObjectSchema.Validate: for every input key
outside the effective field map, emit an unrecognized_keys error under
strict, validate against the catchall schema when one is set, copy the
raw value through under passthrough, and silently drop otherwise. -/
def objectUnknownLoop (v : Validator) (d : ObjectData) (fields : List (String × Addr)) :
    Heap → List (String × GoValue) → List ValidationError → List (String × GoValue) →
    Option (Heap × List ValidationError × List (String × GoValue))
  | h, [], errs, obj => some (h, errs, obj)
  | h, (fieldName, fieldValue) :: rest, errs, obj =>
    if alHas fields fieldName then objectUnknownLoop v d fields h rest errs obj
    else if d.strict then
      objectUnknownLoop v d fields h rest
        (errs ++ [{ Field := fieldName, Message := "unknown field",
                    Value := fieldValue, Code := "unrecognized_keys" }]) obj
    else
      match d.catchall with
      | some ca =>
        match v h ca fieldValue with
        | none => none
        | some (h2, r) =>
          if r.Valid then objectUnknownLoop v d fields h2 rest errs (alSet obj fieldName r.Value)
          else objectUnknownLoop v d fields h2 rest (errs ++ retag fieldName r.Errors) obj
      | none =>
        if d.passthrough then
          objectUnknownLoop v d fields h rest errs (alSet obj fieldName fieldValue)
        else objectUnknownLoop v d fields h rest errs obj

/-- The element loop shared by ArraySchema.Validate and the rest-portion
of TupleSchema.Validate: validate every element against one schema,
tagging errors with the element index; failed slots contribute nil to
the normalized sequence (Go leaves the preallocated slot nil). -/
def elemsLoop (v : Validator) (element : Addr) :
    Heap → List GoValue → Nat → List ValidationError → List GoValue →
    Option (Heap × List ValidationError × List GoValue)
  | h, [], _, errs, acc => some (h, errs, acc)
  | h, x :: rest, i, errs, acc =>
    match v h element x with
    | none => none
    | some (h2, r) =>
      if r.Valid then elemsLoop v element h2 rest (i + 1) errs (acc ++ [r.Value])
      else
        elemsLoop v element h2 rest (i + 1)
          (errs ++ retag ("[" ++ toString i ++ "]") r.Errors) (acc ++ [GoValue.nil])

/-- The fixed-elements loop of TupleSchema.Validate over the positional
schemas paired with the input elements (the zip models the break once
the input is exhausted). -/
def tupleFixedLoop (v : Validator) :
    Heap → List (Addr × GoValue) → Nat → List ValidationError → List GoValue →
    Option (Heap × List ValidationError × List GoValue)
  | h, [], _, errs, acc => some (h, errs, acc)
  | h, (schema, x) :: rest, i, errs, acc =>
    match v h schema x with
    | none => none
    | some (h2, r) =>
      if r.Valid then tupleFixedLoop v h2 rest (i + 1) errs (acc ++ [r.Value])
      else
        tupleFixedLoop v h2 rest (i + 1)
          (errs ++ retag ("[" ++ toString i ++ "]") r.Errors) (acc ++ [GoValue.nil])

/-- Aggregation shared by the composite validators: a failing result with
the accumulated errors when any exist, else a valid result with the
normalized value. -/
def aggregate (errs : List ValidationError) (value : GoValue) : ValidationResult :=
  match errs with
  | [] => validResult value
  | _ => { Valid := false, Errors := errs, Value := GoValue.nil }

/-- Wrap up an element loop outcome: aggregate the collected errors with
the normalized sequence (ObjectSchema-style aggregation step shared by
Array and Tuple validation). -/
def finishSeq (o : Option (Heap × List ValidationError × List GoValue)) :
    Option (Heap × ValidationResult) :=
  o.map (fun t => (t.1, aggregate t.2.1 (GoValue.arrV t.2.2)))

/-- Wrap up the object loops' outcome: aggregate the collected errors
with the normalized record. -/
def finishObj (o : Option (Heap × List ValidationError × List (String × GoValue))) :
    Option (Heap × ValidationResult) :=
  o.map (fun t => (t.1, aggregate t.2.1 (GoValue.mapV t.2.2)))

/-- Type-specific validation of a present (or default-substituted) value,
dispatching on the node kind; pv is the processed value produced by
handleNil and value the original argument (used in reported error
values, and validated directly by Lazy).  Child validations go through
the supplied Validator, which carries one less unit of fuel. -/
def validateKind (v : Validator) (h : Heap) (a : Addr) (node : Node)
    (pv value : GoValue) : Option (Heap × ValidationResult) :=
  match node.kind with
  | SchemaKind.objectK d =>
    match toObjMap pv with
    | none => some (h, singleError "expected object" value "invalid_type")
    | some objMap =>
      let ef := getEffectiveFields h d
      finishObj ((objectFieldsLoop v objMap ef.1 ef.2 [] []).bind
        (fun t => objectUnknownLoop v d ef.2 t.1 objMap t.2.1 t.2.2))
  | SchemaKind.arrayK element minL maxL lenC nonempty =>
    match pv with
    | GoValue.arrV xs =>
      let len : Int := xs.length
      let e1 : List ValidationError :=
        match lenC with
        | some L =>
          if len ≠ L then
            [{ Field := "", Message := "array must have exactly " ++ toString L ++ " elements",
               Value := value, Code := "invalid_type" }]
          else []
        | none => []
      let e2 : List ValidationError :=
        match minL with
        | some mn =>
          if len < mn then
            [{ Field := "", Message := "array must have at least " ++ toString mn ++ " elements",
               Value := value, Code := "too_small" }]
          else []
        | none => []
      let e3 : List ValidationError :=
        match maxL with
        | some mx =>
          if len > mx then
            [{ Field := "", Message := "array must have at most " ++ toString mx ++ " elements",
               Value := value, Code := "too_big" }]
          else []
        | none => []
      let e4 : List ValidationError :=
        if nonempty && xs.isEmpty then
          [{ Field := "", Message := "array must not be empty",
             Value := value, Code := "too_small" }]
        else []
      finishSeq (elemsLoop v element h xs 0 (e1 ++ e2 ++ e3 ++ e4) [])
    | _ => some (h, singleError "expected array" value "invalid_type")
  | SchemaKind.tupleK elements rest =>
    match pv with
    | GoValue.arrV xs =>
      let e1 : List ValidationError :=
        match rest with
        | none =>
          if xs.length ≠ elements.length then
            [{ Field := "",
               Message := "tuple must have exactly " ++ toString elements.length ++ " elements",
               Value := value, Code := "invalid_type" }]
          else []
        | some _ => []
      let e2 : List ValidationError :=
        match rest with
        | some _ =>
          if xs.length < elements.length then
            [{ Field := "",
               Message := "tuple must have at least " ++ toString elements.length ++ " elements",
               Value := value, Code := "too_small" }]
          else []
        | none => []
      let fixedRes := tupleFixedLoop v h (elements.zip xs) 0 (e1 ++ e2) []
      match rest with
      | some restSchema =>
        finishSeq (fixedRes.bind
          (fun t => elemsLoop v restSchema t.1 (xs.drop elements.length) elements.length t.2.1 t.2.2))
      | none => finishSeq fixedRes
    | _ => some (h, singleError "expected tuple" value "invalid_type")
  | SchemaKind.unionK schemas =>
    match unionLoop v pv h schemas 0 [] with
    | none => none
    | some (h2, some r, _) => some (h2, r)
    | some (h2, none, _) =>
      some (h2,
        { Valid := false,
          Errors := [{ Field := "", Message := unionNoMatchMsg schemas.length,
                       Value := value, Code := "invalid_union" }],
          Value := GoValue.nil })
  | SchemaKind.dunionK disc options =>
    match toObjMap pv with
    | none => some (h, singleError "expected object for discriminated union" value "invalid_type")
    | some objMap =>
      match alGet objMap disc with
      | none =>
        some (h, singleError ("missing discriminant field '" ++ disc ++ "'") value "invalid_union")
      | some dv =>
        let ds := goFormat dv
        match alGet options ds with
        | none =>
          some (h, singleError ("unknown discriminant value '" ++ ds ++ "'") dv "invalid_union")
        | some schema => v h schema pv
  | SchemaKind.literalK lit =>
    if deepEqual pv lit then some (h, validResult pv)
    else
      some (h, singleError ("expected literal value " ++ goFormat lit) value "invalid_literal")
  | SchemaKind.enumK values =>
    if enumHas values pv then some (h, validResult pv)
    else
      some (h,
        singleError ("expected one of [" ++ goFormatList values ++ "]") value "invalid_enum_value")
  | SchemaKind.nullableK inner =>
    if value.isNil then some (h, validResult GoValue.nil) else v h inner value
  | SchemaKind.anyK => some (h, validResult pv)
  | SchemaKind.unknownK => some (h, validResult pv)
  | SchemaKind.voidK => some (h, validResult GoValue.nil)
  | SchemaKind.neverK => some (h, neverResult value)
  | SchemaKind.booleanK =>
    match convertToBoolean pv with
    | (b, true) => some (h, validResult (GoValue.boolV b))
    | (_, false) => some (h, singleError "expected boolean" value "invalid_type")
  | SchemaKind.lazyK fn cached cnt =>
    match cached with
    | some c => v h c value
    | none =>
      let h2 := heapSet h a { base := node.base, kind := SchemaKind.lazyK fn (some fn) (cnt + 1) }
      v h2 fn value

/-- Schema.Validate with fuel: dereference the schema node, run the
shared nil/default/required resolution (except for Never, which always
fails, and Nullable, which accepts nil directly), then dispatch to the
type-specific validation.  Fuel bounds the validation recursion depth;
exhausted fuel (or a dangling address) yields none. -/
def validate : Nat → Heap → Addr → GoValue → Option (Heap × ValidationResult)
  | 0 => fun _ _ _ => none
  | Nat.succ fuel => fun h a value =>
    match nodeAt h a with
    | none => none
    | some node =>
      match node.kind with
      | SchemaKind.neverK => some (h, neverResult value)
      | SchemaKind.nullableK inner =>
        if value.isNil then some (h, validResult GoValue.nil)
        else validate fuel h inner value
      | _ =>
        let hn := handleNil node.base value
        if hn.2.1 then some (h, hn.2.2)
        else validateKind (validate fuel) h a node hn.1 value

/-! ## Spec-side predicates and general lemmas -/

/-- Kinds whose Validate method delegates nil handling to
BaseSchema.handleNil; Never fails unconditionally and Nullable accepts
nil directly, bypassing the shared resolution. -/
def usesHandleNil : SchemaKind → Bool
  | SchemaKind.neverK => false
  | SchemaKind.nullableK _ => false
  | _ => true

/-- Erase the reported offending value from an error. -/
def scrubErr (e : ValidationError) : ValidationError :=
  { e with Value := GoValue.nil }

/-- Erase the reported offending values from a result's errors. -/
def scrubRes (r : ValidationResult) : ValidationResult :=
  { r with Errors := r.Errors.map scrubErr }

/-- Erase the reported offending values from a validation outcome,
keeping the heap, validity, normalized value, and error structure. -/
def scrub : Option (Heap × ValidationResult) → Option (Heap × ValidationResult) :=
  Option.map (fun p => (p.1, scrubRes p.2))

/-- Kinds for which substituting the default and validating it coincide
with validating the default as the present input (up to the reported
offending values): all but Nullable, which ignores the default entirely,
and Lazy, which substitutes but then forwards the original value. -/
def defaultComparable : SchemaKind → Bool
  | SchemaKind.nullableK _ => false
  | SchemaKind.lazyK _ _ _ => false
  | _ => true

/-- Two error lists that agree after erasing the reported values. -/
def scrubEq (es1 es2 : List ValidationError) : Prop :=
  es1.map scrubErr = es2.map scrubErr

/-- Heap holding Nullable(Boolean()): address 0 is the nullable wrapper
(isRequired set by its constructor, no default), address 1 the inner
boolean schema. -/
def nullableHeap : Heap :=
  [{ base := newBase, kind := SchemaKind.nullableK 1 },
   { base := newBase, kind := SchemaKind.booleanK }]

/-- Heap holding Literal(5).Default(3): the default value 3 violates the
literal constraint. -/
def literalDefaultHeap : Heap :=
  [{ base := { isOptional := false, isRequired := true,
               defaultValue := GoValue.intV 3, hasDefault := true },
     kind := SchemaKind.literalK (GoValue.intV 5) }]

/-- Heap holding DiscriminatedUnion("type", {"circle": Boolean()}):
address 0 the discriminated union, address 1 the circle branch schema. -/
def dunionHeap : Heap :=
  [{ base := newBase, kind := SchemaKind.dunionK "type" [("circle", 1)] },
   { base := newBase, kind := SchemaKind.booleanK }]

/-- Sequential validation of schema/value pairs, threading the heap and
collecting every outcome in order; none when any step runs out of fuel. -/
def runSeq (v : Validator) : Heap → List (Addr × GoValue) → Option (Heap × List ValidationResult)
  | h, [] => some (h, [])
  | h, (a, x) :: rest =>
    match v h a x with
    | none => none
    | some (h2, r) =>
      match runSeq v h2 rest with
      | none => none
      | some (h3, rs) => some (h3, r :: rs)

/-- First-match-wins specification of plain union validation: some prefix
of the alternatives all fail (validated in declaration order, threading
the heap), and the next alternative succeeds with exactly the outcome
out, which the union returns verbatim. -/
def FirstSuccess (v : Validator) (pv : GoValue) (h : Heap) (alts : List Addr)
    (out : Heap × ValidationResult) : Prop :=
  ∃ pre b suf hmid rsPre,
    alts = pre ++ b :: suf ∧
    runSeq v h (pre.map (fun c => (c, pv))) = some (hmid, rsPre) ∧
    (∀ r ∈ rsPre, r.Valid = false) ∧
    v hmid b pv = some out ∧
    out.2.Valid = true

/-- Specification of an exhausted union: every alternative was tried in
declaration order and failed. -/
def AllFail (v : Validator) (pv : GoValue) (h : Heap) (alts : List Addr)
    (hAll : Heap) : Prop :=
  ∃ rsAll, runSeq v h (alts.map (fun c => (c, pv))) = some (hAll, rsAll) ∧
    ∀ r ∈ rsAll, r.Valid = false

/-- Heap holding Union(Literal("x"), Boolean()): address 0 the union,
address 1 the literal alternative, address 2 the boolean alternative. -/
def unionHeap : Heap :=
  [{ base := newBase, kind := SchemaKind.unionK [1, 2] },
   { base := newBase, kind := SchemaKind.literalK (GoValue.strV "x") },
   { base := newBase, kind := SchemaKind.booleanK }]

/-- Index-tagged error collection of a sequence of outcomes: every failing
outcome contributes its errors re-tagged with the element index, in
order, starting at start; valid outcomes contribute nothing. -/
def tagAll (start : Nat) : List ValidationResult → List ValidationError
  | [] => []
  | r :: rest =>
    (if r.Valid then [] else retag ("[" ++ toString start ++ "]") r.Errors) ++
      tagAll (start + 1) rest

/-- Normalized slots of a sequence of outcomes: a valid outcome's value,
nil for a failing one (its preallocated slot is never written). -/
def valuesOf (rs : List ValidationResult) : List GoValue :=
  rs.map (fun r => if r.Valid then r.Value else GoValue.nil)

/-- Heap holding Tuple(Literal("x")).Rest(Boolean()): address 0 the tuple
with one fixed element, address 1 the literal, address 2 the rest schema. -/
def tupleHeap : Heap :=
  [{ base := newBase, kind := SchemaKind.tupleK [1] (some 2) },
   { base := newBase, kind := SchemaKind.literalK (GoValue.strV "x") },
   { base := newBase, kind := SchemaKind.booleanK }]

/-- Pipeline step written from the claim's wording: keep only the picked
names that exist, silently dropping names that do not (no error). -/
def pickStep (m : List (String × Addr)) (names : List String) : List (String × Addr) :=
  names.foldl (fun acc key =>
    match alGet m key with
    | some schema => alSet acc key schema
    | none => acc) []

/-- Pipeline step written from the claim's wording: remove the omit names. -/
def omitStep (m : List (String × Addr)) (names : List String) : List (String × Addr) :=
  names.foldl (fun acc key => alRemove acc key) m

/-- Pipeline step written from the claim's wording: mark every remaining
field optional (an Optional() call on each field schema node). -/
def markOptionalStep (h : Heap) (m : List (String × Addr)) : Heap × List (String × Addr) :=
  m.foldl (fun (acc : Heap × List (String × Addr)) p =>
    (setOptionalAt acc.1 p.2, alSet acc.2 p.1 p.2)) (h, m)

/-- Pipeline step written from the claim's wording: mark exactly the
fields named in the required-fields directive (that exist) back to
required, winning last. -/
def markRequiredStep (h : Heap) (m : List (String × Addr)) (names : List String) :
    Heap × List (String × Addr) :=
  names.foldl (fun (acc : Heap × List (String × Addr)) key =>
    match alGet acc.2 key with
    | some schema => (setRequiredAt acc.1 schema, alSet acc.2 key schema)
    | none => acc) (h, m)

/-- The heap-independent front of the pipeline as the claim words it:
base fields, merge overlay, extend overlay, pick (when non-empty), omit. -/
def specOmitted (h : Heap) (d : ObjectData) : List (String × Addr) :=
  let base := alNormalize d.fields
  let merged :=
    match d.merge with
    | some a => overlay base (objectBaseFields h a)
    | none => base
  let extended :=
    match d.extend with
    | some ext => overlay merged ext
    | none => merged
  let picked := if d.pick.isEmpty then extended else pickStep extended d.pick
  omitStep picked d.omitKeys

/-- The effective-field pipeline exactly as claim C2 words it: base
fields, merge overlay, extend overlay, pick, omit, mark optional when
partial is set (the claim names only the partial directive), required
override last. -/
def effectiveFieldsClaimC2 (h : Heap) (d : ObjectData) : Heap × List (String × Addr) :=
  let omitted := specOmitted h d
  let partialed := if d.partialFlag then markOptionalStep h omitted else (h, omitted)
  markRequiredStep partialed.1 partialed.2 d.required

/-- The effective-field pipeline as amended: identical to the claim's
wording except that the mark-optional step runs when partial OR
deepPartial is set, matching the source condition. -/
def effectiveFieldsSpec (h : Heap) (d : ObjectData) : Heap × List (String × Addr) :=
  let omitted := specOmitted h d
  let partialed :=
    if d.partialFlag || d.deepPartialFlag then markOptionalStep h omitted else (h, omitted)
  markRequiredStep partialed.1 partialed.2 d.required

/-- ObjectData of Object({x: Boolean()}).DeepPartial(): only the
deepPartial directive is set. -/
def deepPartialData : ObjectData :=
  { fields := [("x", 0)], strict := false, passthrough := false, catchall := none,
    partialFlag := false, deepPartialFlag := true, required := [], pick := [],
    omitKeys := [], extend := none, merge := none }

/-- Heap for the deepPartial example: address 0 holds the field schema. -/
def deepPartialHeap : Heap :=
  [{ base := newBase, kind := SchemaKind.booleanK }]

/-- Modality flags of the node at an address: (isOptional, isRequired). -/
def flagsAt (h : Heap) (a : Addr) : Option (Bool × Bool) :=
  (baseAt h a).map (fun b => (b.isOptional, b.isRequired))

/-- An association list with pairwise-distinct keys, the invariant of
lists that represent Go maps. -/
def keysNodup {α : Type} (m : List (String × α)) : Prop :=
  (m.map Prod.fst).Nodup

/-- ObjectData of Object({x: schema-at-2}).Partial(): the partial object
of the sharing demonstration. -/
def partialDemoData : ObjectData :=
  { fields := [("x", 2)], strict := false, passthrough := false, catchall := none,
    partialFlag := true, deepPartialFlag := false, required := [], pick := [],
    omitKeys := [], extend := none, merge := none }

/-- ObjectData of a second, plain Object({x: schema-at-2}) sharing the
same field schema node. -/
def plainDemoData : ObjectData :=
  { fields := [("x", 2)], strict := false, passthrough := false, catchall := none,
    partialFlag := false, deepPartialFlag := false, required := [], pick := [],
    omitKeys := [], extend := none, merge := none }

/-- Heap of the sharing demonstration: the partial object at 0 and the
plain object at 1 both reference the boolean field schema at 2. -/
def partialDemoHeap : Heap :=
  [{ base := newBase, kind := SchemaKind.objectK partialDemoData },
   { base := newBase, kind := SchemaKind.objectK plainDemoData },
   { base := newBase, kind := SchemaKind.booleanK }]

/-- The demo heap after one Validate call on the partial object: the
shared field schema node at address 2 has been marked optional in place. -/
def partialDemoAfter : Heap :=
  [{ base := newBase, kind := SchemaKind.objectK partialDemoData },
   { base := newBase, kind := SchemaKind.objectK plainDemoData },
   { base := { isOptional := true, isRequired := false,
               defaultValue := GoValue.nil, hasDefault := false },
     kind := SchemaKind.booleanK }]

/-- Schema/value pairs of the declared-fields walk: each effective field
paired with the corresponding input entry, nil when absent. -/
def fieldPairs (objMap : List (String × GoValue)) : List (String × Addr) → List (Addr × GoValue)
  | [] => []
  | (k, fa) :: rest =>
    (fa,
      match alGet objMap k with
      | some fv => fv
      | none => GoValue.nil) :: fieldPairs objMap rest

/-- Errors of the declared-fields walk: each failing field's errors
re-tagged with the field name, in field order. -/
def taggedFieldErrs : List (String × Addr) → List ValidationResult → List ValidationError
  | (k, _) :: fs, r :: rs =>
    (if r.Valid then [] else retag k r.Errors) ++ taggedFieldErrs fs rs
  | _, _ => []

/-- Normalized entries of the declared-fields walk: a valid field's
normalized value is stored under the field name only when non-nil. -/
def storedFields : List (String × Addr) → List ValidationResult → List (String × GoValue) →
    List (String × GoValue)
  | (k, _) :: fs, r :: rs, obj =>
    storedFields fs rs
      (if r.Valid then (if r.Value.isNil then obj else alSet obj k r.Value) else obj)
  | _, _, obj => obj

/-- Input entries whose keys fall outside the effective field map. -/
def unknownEntries (fields : List (String × Addr)) (m : List (String × GoValue)) :
    List (String × GoValue) :=
  m.filter (fun p => ! alHas fields p.1)

/-- The unrecognized_keys errors a strict object emits, one per unknown
input key, in input order. -/
def strictErrs (fields : List (String × Addr)) (m : List (String × GoValue)) :
    List ValidationError :=
  (unknownEntries fields m).map (fun p =>
    { Field := p.1, Message := "unknown field", Value := p.2, Code := "unrecognized_keys" })

/-- Schema/value pairs of the catchall walk over the unknown entries. -/
def catchallPairs (ca : Addr) : List (String × GoValue) → List (Addr × GoValue)
  | [] => []
  | (_, qv) :: rest => (ca, qv) :: catchallPairs ca rest

/-- Errors of the catchall walk: each failing unknown entry's errors
re-tagged with its key. -/
def taggedUnknownErrs : List (String × GoValue) → List ValidationResult → List ValidationError
  | (k, _) :: ms, r :: rs =>
    (if r.Valid then [] else retag k r.Errors) ++ taggedUnknownErrs ms rs
  | _, _ => []

/-- Normalized entries of the catchall walk: a valid outcome's value is
stored unconditionally (nil included) under the unknown key. -/
def catchallStored : List (String × GoValue) → List ValidationResult → List (String × GoValue) →
    List (String × GoValue)
  | (k, _) :: ms, r :: rs, obj =>
    catchallStored ms rs (if r.Valid then alSet obj k r.Value else obj)
  | _, _, obj => obj

/-- Raw copies the passthrough mode makes of the unknown entries. -/
def passthroughStored (obj : List (String × GoValue)) (ms : List (String × GoValue)) :
    List (String × GoValue) :=
  ms.foldl (fun o p => alSet o p.1 p.2) obj

/-- ObjectData of Object({x: Boolean()}).Strict(). -/
def strictDemoData : ObjectData :=
  { fields := [("x", 1)], strict := true, passthrough := false, catchall := none,
    partialFlag := false, deepPartialFlag := false, required := [], pick := [],
    omitKeys := [], extend := none, merge := none }

/-- Heap for the strict-object example: the strict object at 0, the
boolean field schema at 1. -/
def strictDemoHeap : Heap :=
  [{ base := newBase, kind := SchemaKind.objectK strictDemoData },
   { base := newBase, kind := SchemaKind.booleanK }]

/-- ObjectData of Object({x: Boolean(), y: Boolean().Optional()}). -/
def optionalDemoData : ObjectData :=
  { fields := [("x", 1), ("y", 2)], strict := false, passthrough := false, catchall := none,
    partialFlag := false, deepPartialFlag := false, required := [], pick := [],
    omitKeys := [], extend := none, merge := none }

/-- Heap for the optional-absent-field example: the object at 0, the
required boolean at 1, the optional boolean at 2. -/
def optionalDemoHeap : Heap :=
  [{ base := newBase, kind := SchemaKind.objectK optionalDemoData },
   { base := newBase, kind := SchemaKind.booleanK },
   { base := { isOptional := true, isRequired := false,
               defaultValue := GoValue.nil, hasDefault := false },
     kind := SchemaKind.booleanK }]

/-- The at-most-once bookkeeping of a lazy node: its constructor-call
counter is 1 exactly when the cache is populated (the single first-use
invocation) and 0 before; other kinds carry no counter. -/
def lazyCountOk : SchemaKind → Bool
  | SchemaKind.lazyK _ c cnt =>
    match c with
    | some _ => cnt == 1
    | none => cnt == 0
  | _ => true

/-- The at-most-once invariant over a whole heap: every lazy node has
been constructed at most once, exactly when its cache is populated. -/
def lazyInv (h : Heap) : Bool := h.all fun node => lazyCountOk node.kind

/-- A validator that preserves the lazy at-most-once invariant. -/
def PreservesLazyInv (v : Validator) : Prop :=
  ∀ (h : Heap) (a : Addr) (value : GoValue) (h2 : Heap) (r : ValidationResult),
    lazyInv h = true → v h a value = some (h2, r) → lazyInv h2 = true

/-- Self-referential lazy schema before any validation: address 0 is
Lazy(func() { return address 1 }) with an empty cache, address 1 an
Array whose element schema is the lazy node itself. -/
def lazyDemoHeap : Heap :=
  [{ base := newBase, kind := SchemaKind.lazyK 1 none 0 },
   { base := newBase, kind := SchemaKind.arrayK 0 none none none false }]

/-- The same schema after the single constructor invocation: the cache
holds the constructed schema and the call counter is 1. -/
def lazyDemoHeap2 : Heap :=
  [{ base := newBase, kind := SchemaKind.lazyK 1 (some 1) 1 },
   { base := newBase, kind := SchemaKind.arrayK 0 none none none false }]

/-- A depth-3 recursive input for the self-referential lazy schema. -/
def lazyDemoValue : GoValue :=
  GoValue.arrV [GoValue.arrV [GoValue.arrV []]]

/-! ## Theorems -/

theorem isNil_eq_nil {v : GoValue} (hv : v.isNil = true) : v = GoValue.nil := by
  cases v <;> simp [GoValue.isNil] at hv ⊢

theorem elemsLoop_append_errs (v : Validator) (element : Addr) :
    ∀ (xs : List GoValue) (h : Heap) (i : Nat) (es0 es : List ValidationError)
      (acc : List GoValue),
      elemsLoop v element h xs i (es0 ++ es) acc =
        (elemsLoop v element h xs i es acc).map (fun t => (t.1, es0 ++ t.2.1, t.2.2))
  | [], h, i, es0, es, acc => rfl
  | x :: rest, h, i, es0, es, acc => by
    simp only [elemsLoop]
    cases v h element x with
    | none => rfl
    | some p =>
      obtain ⟨h2, r⟩ := p
      by_cases hv : r.Valid <;>
        simp [hv, List.append_assoc, elemsLoop_append_errs v element rest]

theorem tupleFixedLoop_append_errs (v : Validator) :
    ∀ (ps : List (Addr × GoValue)) (h : Heap) (i : Nat) (es0 es : List ValidationError)
      (acc : List GoValue),
      tupleFixedLoop v h ps i (es0 ++ es) acc =
        (tupleFixedLoop v h ps i es acc).map (fun t => (t.1, es0 ++ t.2.1, t.2.2))
  | [], h, i, es0, es, acc => rfl
  | p :: rest, h, i, es0, es, acc => by
    obtain ⟨schema, x⟩ := p
    simp only [tupleFixedLoop]
    cases v h schema x with
    | none => rfl
    | some q =>
      obtain ⟨h2, r⟩ := q
      by_cases hv : r.Valid <;>
        simp [hv, List.append_assoc, tupleFixedLoop_append_errs v rest]

theorem scrubEq_append {es1 es2 fs1 fs2 : List ValidationError}
    (h1 : scrubEq es1 es2) (h2 : scrubEq fs1 fs2) :
    scrubEq (es1 ++ fs1) (es2 ++ fs2) := by
  simp only [scrubEq, List.map_append] at h1 h2 ⊢
  rw [h1, h2]

theorem scrubEq_nil_iff {es1 es2 : List ValidationError} (h : scrubEq es1 es2) :
    es1 = [] ↔ es2 = [] := by
  unfold scrubEq at h
  constructor <;> intro he <;> subst he
  · cases es2 with
    | nil => rfl
    | cons e rest => simp at h
  · cases es1 with
    | nil => rfl
    | cons e rest => simp at h

theorem scrubRes_aggregate {es1 es2 : List ValidationError} (val : GoValue)
    (h : scrubEq es1 es2) :
    scrubRes (aggregate es1 val) = scrubRes (aggregate es2 val) := by
  by_cases h1 : es1 = []
  · have h2 : es2 = [] := (scrubEq_nil_iff h).mp h1
    rw [h1, h2]
  · have h2 : es2 ≠ [] := fun he => h1 ((scrubEq_nil_iff h).mpr he)
    cases es1 with
    | nil => exact absurd rfl h1
    | cons e1 rest1 =>
      cases es2 with
      | nil => exact absurd rfl h2
      | cons e2 rest2 =>
        simp only [aggregate, scrubRes]
        simpa [scrubEq] using h

theorem scrubEq_single (m : String) (v1 v2 : GoValue) (c : String) :
    scrubEq [{ Field := "", Message := m, Value := v1, Code := c }]
      [{ Field := "", Message := m, Value := v2, Code := c }] := by
  simp [scrubEq, scrubErr]

theorem scrub_singleError (m : String) (v1 v2 : GoValue) (c : String) (h : Heap) :
    scrub (some (h, singleError m v1 c)) = scrub (some (h, singleError m v2 c)) := by
  simp [scrub, scrubRes, scrubErr, singleError]

theorem scrub_finishSeq_elems (v : Validator) (element : Addr) (h : Heap)
    (xs : List GoValue) (i : Nat) (acc : List GoValue)
    {es1 es2 : List ValidationError} (hsc : scrubEq es1 es2) :
    scrub (finishSeq (elemsLoop v element h xs i es1 acc)) =
      scrub (finishSeq (elemsLoop v element h xs i es2 acc)) := by
  rw [← List.append_nil es1, ← List.append_nil es2, elemsLoop_append_errs,
    elemsLoop_append_errs]
  rcases elemsLoop v element h xs i [] acc with _ | ⟨h2, gen, vals⟩
  · rfl
  · simp only [Option.map, finishSeq, scrub]
    exact congrArg (fun r => some (h2, r))
      (scrubRes_aggregate _ (scrubEq_append hsc rfl))

theorem scrub_finishSeq_tuple (v : Validator) (h : Heap)
    (ps : List (Addr × GoValue)) (i : Nat) (acc : List GoValue)
    {es1 es2 : List ValidationError} (hsc : scrubEq es1 es2) :
    scrub (finishSeq (tupleFixedLoop v h ps i es1 acc)) =
      scrub (finishSeq (tupleFixedLoop v h ps i es2 acc)) := by
  rw [← List.append_nil es1, ← List.append_nil es2, tupleFixedLoop_append_errs,
    tupleFixedLoop_append_errs]
  rcases tupleFixedLoop v h ps i [] acc with _ | ⟨h2, gen, vals⟩
  · rfl
  · simp only [Option.map, finishSeq, scrub]
    exact congrArg (fun r => some (h2, r))
      (scrubRes_aggregate _ (scrubEq_append hsc rfl))

theorem scrub_finishSeq_tuple_rest (v : Validator) (restSchema : Addr) (h : Heap)
    (ps : List (Addr × GoValue)) (dropxs : List GoValue) (istart i : Nat)
    (acc : List GoValue) {es1 es2 : List ValidationError} (hsc : scrubEq es1 es2) :
    scrub (finishSeq ((tupleFixedLoop v h ps i es1 acc).bind
        (fun t => elemsLoop v restSchema t.1 dropxs istart t.2.1 t.2.2))) =
      scrub (finishSeq ((tupleFixedLoop v h ps i es2 acc).bind
        (fun t => elemsLoop v restSchema t.1 dropxs istart t.2.1 t.2.2))) := by
  rw [← List.append_nil es1, ← List.append_nil es2, tupleFixedLoop_append_errs,
    tupleFixedLoop_append_errs]
  rcases tupleFixedLoop v h ps i [] acc with _ | ⟨h2, gen, vals⟩
  · rfl
  · simp only [Option.map, Option.bind]
    exact scrub_finishSeq_elems v restSchema h2 dropxs istart vals
      (scrubEq_append hsc rfl)

theorem validateKind_scrub_value (v : Validator) (h : Heap) (a : Addr) (node : Node)
    (pv val1 val2 : GoValue) (hcomp : defaultComparable node.kind = true) :
    scrub (validateKind v h a node pv val1) = scrub (validateKind v h a node pv val2) := by
  obtain ⟨base, kind⟩ := node
  cases kind with
  | objectK d =>
    simp only [validateKind]
    cases toObjMap pv with
    | none => exact scrub_singleError _ _ _ _ _
    | some objMap => rfl
  | arrayK element minL maxL lenC nonempty =>
    simp only [validateKind]
    cases pv with
    | arrV xs =>
      apply scrub_finishSeq_elems
      refine scrubEq_append (scrubEq_append (scrubEq_append ?_ ?_) ?_) ?_
      · cases lenC with
        | none => rfl
        | some L =>
          dsimp only
          split_ifs with hc
          · exact scrubEq_single _ _ _ _
          · rfl
      · cases minL with
        | none => rfl
        | some mn =>
          dsimp only
          split_ifs with hc
          · exact scrubEq_single _ _ _ _
          · rfl
      · cases maxL with
        | none => rfl
        | some mx =>
          dsimp only
          split_ifs with hc
          · exact scrubEq_single _ _ _ _
          · rfl
      · split_ifs with hc
        · exact scrubEq_single _ _ _ _
        · rfl
    | nil => exact scrub_singleError _ _ _ _ _
    | boolV b => exact scrub_singleError _ _ _ _ _
    | intV i => exact scrub_singleError _ _ _ _ _
    | strV s => exact scrub_singleError _ _ _ _ _
    | mapV m => exact scrub_singleError _ _ _ _ _
  | tupleK elements rest =>
    simp only [validateKind]
    cases pv with
    | arrV xs =>
      cases rest with
      | none =>
        dsimp only
        apply scrub_finishSeq_tuple
        refine scrubEq_append ?_ rfl
        split_ifs with hc
        · exact scrubEq_single _ _ _ _
        · rfl
      | some restSchema =>
        dsimp only
        apply scrub_finishSeq_tuple_rest
        refine scrubEq_append rfl ?_
        split_ifs with hc
        · exact scrubEq_single _ _ _ _
        · rfl
    | nil => exact scrub_singleError _ _ _ _ _
    | boolV b => exact scrub_singleError _ _ _ _ _
    | intV i => exact scrub_singleError _ _ _ _ _
    | strV s => exact scrub_singleError _ _ _ _ _
    | mapV m => exact scrub_singleError _ _ _ _ _
  | unionK schemas =>
    simp only [validateKind]
    rcases hu : unionLoop v pv h schemas 0 [] with _ | ⟨h2, ro, acc⟩
    · rfl
    · cases ro with
      | none => simp [scrub, scrubRes, scrubErr]
      | some r => rfl
  | dunionK disc options =>
    simp only [validateKind]
    rcases hm : toObjMap pv with _ | objMap
    · simp only [hm]
      exact scrub_singleError _ _ _ _ _
    · simp only [hm]
      rcases hd : alGet objMap disc with _ | dv
      · simp only [hd]
        exact scrub_singleError _ _ _ _ _
      · simp only [hd]
  | literalK lit =>
    simp only [validateKind]
    by_cases hde : deepEqual pv lit
    · simp [hde]
    · simp only [hde, if_false, Bool.false_eq_true]
      exact scrub_singleError _ _ _ _ _
  | enumK values =>
    simp only [validateKind]
    by_cases hde : enumHas values pv
    · simp [hde]
    · simp only [hde, if_false, Bool.false_eq_true]
      exact scrub_singleError _ _ _ _ _
  | nullableK inner => simp [defaultComparable] at hcomp
  | anyK => rfl
  | unknownK => rfl
  | voidK => rfl
  | neverK => simp [validateKind, scrub, scrubRes, scrubErr, neverResult]
  | booleanK =>
    simp only [validateKind]
    rcases hcv : convertToBoolean pv with ⟨b, flag⟩
    cases flag
    · exact scrub_singleError _ _ _ _ _
    · rfl
  | lazyK fn cached cnt => simp [defaultComparable] at hcomp

/-! ## C5: absent value, no default -/

/-- C5 counterexample: the Nullable node at address 0 is not optional and
has no default, yet validating nil yields a valid Outcome with value
nil instead of the failing required Outcome the claim demands for every
schema node. -/
theorem c5_counterexample :
    validate 1 nullableHeap 0 GoValue.nil = some (nullableHeap, validResult GoValue.nil) ∧
    (baseAt nullableHeap 0).map BaseSchema.isOptional = some false ∧
    (baseAt nullableHeap 0).map BaseSchema.hasDefault = some false := by
  exact ⟨rfl, rfl, rfl⟩

/-- C5 (amended: every schema node except Never and Nullable): validating
an absent (nil) value when no default is set short-circuits before
type-specific validation, leaving the heap untouched; it yields a valid
Outcome with value nil if the node is optional, and otherwise a failing
Outcome containing exactly one error with code required. -/
theorem c5_absent_no_default
    (n : Nat) (h : Heap) (a : Addr) (node : Node)
    (hnode : nodeAt h a = some node)
    (huse : usesHandleNil node.kind = true)
    (hdef : node.base.hasDefault = false) :
    validate (n + 1) h a GoValue.nil =
      some (h, if node.base.isOptional
               then validResult GoValue.nil
               else singleError "field is required" GoValue.nil "required") := by
  obtain ⟨base, kind⟩ := node
  simp only [validate, hnode]
  cases kind <;>
    simp_all [usesHandleNil, handleNil, GoValue.isNil, validResult, singleError] <;>
    cases base.isOptional <;>
    simp_all

/-! ## C1: absent value with a default -/

/-- C1 counterexample: the node at address 0 has a default set, yet
validating an absent value yields an invalid Outcome (the default was
substituted and then re-validated against the literal constraint, which
it violates), not the valid Outcome carrying the default that the claim
demands regardless of other constraints. -/
theorem c1_counterexample :
    validate 1 literalDefaultHeap 0 GoValue.nil =
      some (literalDefaultHeap,
        singleError "expected literal value 5" GoValue.nil "invalid_literal") ∧
    (baseAt literalDefaultHeap 0).map BaseSchema.hasDefault = some true ∧
    (baseAt literalDefaultHeap 0).map BaseSchema.defaultValue = some (GoValue.intV 3) := by
  exact ⟨rfl, rfl, rfl⟩

/-- C1 (amended): for every schema node except Nullable (which accepts
nil without consulting the default) and Lazy (which substitutes the
default but then forwards the original nil to the resolved schema),
validating an absent value when a default is set substitutes the default
and re-validates it through the node's type-specific validation: the
outcome — heap effects, validity, normalized value, and errors up to the
reported offending value — is exactly that of validating the default
value itself.  In particular the outcome is a valid one carrying the
default only when the default satisfies the node's constraints; the
default is not trusted verbatim. -/
theorem c1_default_revalidated
    (n : Nat) (h : Heap) (a : Addr) (node : Node)
    (hnode : nodeAt h a = some node)
    (hdef : node.base.hasDefault = true)
    (hcomp : defaultComparable node.kind = true) :
    scrub (validate (n + 1) h a GoValue.nil) =
      scrub (validate (n + 1) h a node.base.defaultValue) := by
  obtain ⟨base, kind⟩ := node
  replace hdef : base.hasDefault = true := hdef
  replace hcomp : defaultComparable kind = true := hcomp
  by_cases hd : base.defaultValue.isNil = true
  · rw [show ({ base := base, kind := kind } : Node).base.defaultValue = GoValue.nil from
      isNil_eq_nil hd]
  · have hd2 : base.defaultValue.isNil = false := by
      cases hb : base.defaultValue.isNil
      · rfl
      · exact absurd hb hd
    cases kind <;>
      first
        | (simp [defaultComparable] at hcomp; done)
        | (simp [validate, hnode, scrub, scrubRes, scrubErr, neverResult]; done)
        | (simp only [validate, hnode, handleNil, hdef, hd2,
             show GoValue.nil.isNil = true from rfl, Bool.false_eq_true, if_false,
             if_true, ite_true, ite_false, eq_self_iff_true]
           apply validateKind_scrub_value
           exact hcomp)

/-- Concrete instantiation of c1_default_revalidated at the literal
schema with the constraint-violating default: both sides evaluate to the
same scrubbed invalid outcome. -/
theorem c1_witness :
    scrub (validate 1 literalDefaultHeap 0 GoValue.nil) =
      scrub (validate 1 literalDefaultHeap 0 (GoValue.intV 3)) := by
  exact c1_default_revalidated 0 literalDefaultHeap 0
    { base := { isOptional := false, isRequired := true,
                defaultValue := GoValue.intV 3, hasDefault := true },
      kind := SchemaKind.literalK (GoValue.intV 5) } rfl rfl rfl

theorem validate_succ_present (n : Nat) (h : Heap) (a : Addr) (node : Node)
    (value : GoValue) (hnode : nodeAt h a = some node)
    (huse : usesHandleNil node.kind = true)
    (hpresent : value.isNil = false) :
    validate (n + 1) h a value = validateKind (validate n) h a node value value := by
  obtain ⟨base, kind⟩ := node
  replace huse : usesHandleNil kind = true := huse
  cases kind <;>
    first
      | (simp [usesHandleNil] at huse; done)
      | (simp only [validate, hnode, handleNil, hpresent, Bool.false_eq_true, if_false,
          ite_false])

theorem toObjMap_eq_none {value : GoValue} (hm : ∀ m, value ≠ GoValue.mapV m) :
    toObjMap value = none := by
  cases value <;> simp [toObjMap]
  exact hm _ rfl

/-- Concrete instantiation of c5_absent_no_default at Boolean() with no
flags changed: validating nil fails with the single required error. -/
theorem c5_witness :
    validate 3 [{ base := newBase, kind := SchemaKind.booleanK }] 0 GoValue.nil =
      some ([{ base := newBase, kind := SchemaKind.booleanK }],
        singleError "field is required" GoValue.nil "required") := by
  have hthm := c5_absent_no_default 2 [{ base := newBase, kind := SchemaKind.booleanK }] 0
    { base := newBase, kind := SchemaKind.booleanK } rfl rfl rfl
  simpa [newBase] using hthm

/-! ## C6: discriminated union dispatch -/

/-- C6: for every DiscriminatedUnion schema and every present input:
a non-map input fails with a single invalid_type error; a map lacking
the discriminant field fails with a single invalid_union error naming
the missing discriminant; a present discriminant is stringified and used
as an exact-match key into the options map, an unmatched key failing
with a single invalid_union error that reports the offending discriminant
value; and on a match, validation delegates entirely to the branch
schema, whose outcome is returned unchanged. -/
theorem c6_discriminated_union
    (n : Nat) (h : Heap) (a : Addr) (node : Node) (disc : String)
    (options : List (String × Addr)) (value : GoValue)
    (hnode : nodeAt h a = some node)
    (hkind : node.kind = SchemaKind.dunionK disc options)
    (hpresent : value.isNil = false) :
    ((∀ m, value ≠ GoValue.mapV m) →
      validate (n + 1) h a value =
        some (h, singleError "expected object for discriminated union" value "invalid_type")) ∧
    (∀ m, value = GoValue.mapV m →
      (alGet (alNormalize m) disc = none →
        validate (n + 1) h a value =
          some (h, singleError ("missing discriminant field '" ++ disc ++ "'")
            value "invalid_union")) ∧
      (∀ dv, alGet (alNormalize m) disc = some dv →
        (alGet options (goFormat dv) = none →
          validate (n + 1) h a value =
            some (h, singleError ("unknown discriminant value '" ++ goFormat dv ++ "'")
              dv "invalid_union")) ∧
        (∀ branch, alGet options (goFormat dv) = some branch →
          validate (n + 1) h a value = validate n h branch value))) := by
  have huse : usesHandleNil node.kind = true := by rw [hkind]; rfl
  rw [validate_succ_present n h a node value hnode huse hpresent]
  refine ⟨?_, ?_⟩
  · intro hm
    simp [validateKind, hkind, toObjMap_eq_none hm]
  · intro m hm
    subst hm
    refine ⟨?_, ?_⟩
    · intro hdisc
      simp [validateKind, hkind, toObjMap, hdisc]
    · intro dv hdv
      refine ⟨?_, ?_⟩
      · intro hopt
        simp [validateKind, hkind, toObjMap, hdv, hopt]
      · intro branch hopt
        simp [validateKind, hkind, toObjMap, hdv, hopt]

/-- Concrete instantiation of c6_discriminated_union: a matching
discriminant delegates to the circle branch schema unchanged. -/
theorem c6_witness :
    validate 2 dunionHeap 0 (GoValue.mapV [("type", GoValue.strV "circle")]) =
      validate 1 dunionHeap 1 (GoValue.mapV [("type", GoValue.strV "circle")]) := by
  have hthm := c6_discriminated_union 1 dunionHeap 0
    { base := newBase, kind := SchemaKind.dunionK "type" [("circle", 1)] }
    "type" [("circle", 1)] (GoValue.mapV [("type", GoValue.strV "circle")])
    rfl rfl rfl
  exact ((hthm.2 _ rfl).2 (GoValue.strV "circle") rfl).2 1 rfl

/-! ## C4: plain union, first match wins -/

theorem unionLoop_char (v : Validator) (pv : GoValue) :
    ∀ (alts : List Addr) (h : Heap) (i : Nat) (acc : List ValidationError),
      unionLoop v pv h alts i acc = none ∨
      (∃ hout r acc2, unionLoop v pv h alts i acc = some (hout, some r, acc2) ∧
        FirstSuccess v pv h alts (hout, r)) ∨
      (∃ hout acc2, unionLoop v pv h alts i acc = some (hout, none, acc2) ∧
        AllFail v pv h alts hout)
  | [], h, i, acc => by
    right; right
    exact ⟨h, acc, rfl, [], rfl, by simp⟩
  | b :: rest, h, i, acc => by
    simp only [unionLoop]
    cases hv : v h b pv with
    | none => left; rfl
    | some p =>
      obtain ⟨h2, r⟩ := p
      cases hr : r.Valid with
      | true =>
        right; left
        refine ⟨h2, r, acc, by simp [hr], ?_⟩
        exact ⟨[], b, rest, h, [], rfl, rfl, by simp, hv, hr⟩
      | false =>
        rcases unionLoop_char v pv rest h2 (i + 1)
            (acc ++ retag ("union[" ++ toString i ++ "]") r.Errors) with
          hnone | ⟨hout, r2, acc2, heq, hfs⟩ | ⟨hout, acc2, heq, haf⟩
        · left; simp [hr, hnone]
        · right; left
          refine ⟨hout, r2, acc2, by simp [hr, heq], ?_⟩
          obtain ⟨pre, c, suf, hmid, rsPre, hsplit, hrun, hfail, hc, hvalid⟩ := hfs
          refine ⟨b :: pre, c, suf, hmid, r :: rsPre, by simp [hsplit], ?_, ?_, hc, hvalid⟩
          · simp [runSeq, hv, hrun]
          · intro r3 hr3
            rcases List.mem_cons.mp hr3 with h3 | h3
            · rw [h3]; exact hr
            · exact hfail r3 h3
        · right; right
          refine ⟨hout, acc2, by simp [hr, heq], ?_⟩
          obtain ⟨rsAll, hrun, hfail⟩ := haf
          refine ⟨r :: rsAll, ?_, ?_⟩
          · simp [runSeq, hv, hrun]
          · intro r3 hr3
            rcases List.mem_cons.mp hr3 with h3 | h3
            · rw [h3]; exact hr
            · exact hfail r3 h3

/-- C4: for every plain Union schema and present input, the alternatives
are tried in declaration order and the first successful alternative's
Outcome is returned verbatim (normalized value included); if every
alternative fails, the Outcome is invalid and contains exactly one
error with code invalid_union whose message states how many alternatives
were tried (rather than the per-alternative error list).  The fuel-out
case is reported as none. -/
theorem c4_union_first_match
    (n : Nat) (h : Heap) (a : Addr) (node : Node) (alts : List Addr) (value : GoValue)
    (hnode : nodeAt h a = some node)
    (hkind : node.kind = SchemaKind.unionK alts)
    (hpresent : value.isNil = false) :
    validate (n + 1) h a value = none ∨
    (∃ hout r, validate (n + 1) h a value = some (hout, r) ∧
      (FirstSuccess (validate n) value h alts (hout, r) ∨
        (AllFail (validate n) value h alts hout ∧
          r = { Valid := false,
                Errors := [{ Field := "", Message := unionNoMatchMsg alts.length,
                             Value := value, Code := "invalid_union" }],
                Value := GoValue.nil }))) := by
  rw [validate_succ_present n h a node value hnode (by rw [hkind]; rfl) hpresent]
  rcases unionLoop_char (validate n) value alts h 0 [] with
    hnone | ⟨hout, r, acc2, heq, hfs⟩ | ⟨hout, acc2, heq, haf⟩
  · left
    simp [validateKind, hkind, hnone]
  · right
    exact ⟨hout, r, by simp [validateKind, hkind, heq], Or.inl hfs⟩
  · right
    exact ⟨hout, _, by simp [validateKind, hkind, heq], Or.inr ⟨haf, rfl⟩⟩

/-- Concrete instantiation of c4_union_first_match at
Union(Literal("x"), Boolean()) applied to true: the literal alternative
fails, the boolean alternative succeeds and its outcome is returned. -/
theorem c4_witness :
    validate 2 unionHeap 0 (GoValue.boolV true) = none ∨
    (∃ hout r, validate 2 unionHeap 0 (GoValue.boolV true) = some (hout, r) ∧
      (FirstSuccess (validate 1) (GoValue.boolV true) unionHeap [1, 2] (hout, r) ∨
        (AllFail (validate 1) (GoValue.boolV true) unionHeap [1, 2] hout ∧
          r = { Valid := false,
                Errors := [{ Field := "", Message := unionNoMatchMsg 2,
                             Value := GoValue.boolV true, Code := "invalid_union" }],
                Value := GoValue.nil }))) := by
  exact c4_union_first_match 1 unionHeap 0
    { base := newBase, kind := SchemaKind.unionK [1, 2] } [1, 2] (GoValue.boolV true)
    rfl rfl rfl

/-! ## C7: tuple validation -/

theorem tupleFixedLoop_runSeq (v : Validator) :
    ∀ (ps : List (Addr × GoValue)) (h : Heap) (i : Nat) (acc : List GoValue),
      tupleFixedLoop v h ps i [] acc =
        (runSeq v h ps).map (fun t => (t.1, tagAll i t.2, acc ++ valuesOf t.2))
  | [], h, i, acc => by simp [tupleFixedLoop, runSeq, tagAll, valuesOf]
  | (b, x) :: rest, h, i, acc => by
    simp only [tupleFixedLoop, runSeq]
    cases hv : v h b x with
    | none => rfl
    | some p =>
      obtain ⟨h2, r⟩ := p
      cases hr : r.Valid with
      | true =>
        simp only [hr, if_true]
        rw [tupleFixedLoop_runSeq v rest h2 (i + 1) (acc ++ [r.Value])]
        cases runSeq v h2 rest with
        | none => rfl
        | some t =>
          obtain ⟨h3, rs⟩ := t
          simp [tagAll, valuesOf, hr]
      | false =>
        simp only [hr, Bool.false_eq_true, if_false, List.nil_append]
        rw [← List.append_nil (retag ("[" ++ toString i ++ "]") r.Errors),
          tupleFixedLoop_append_errs,
          tupleFixedLoop_runSeq v rest h2 (i + 1) (acc ++ [GoValue.nil])]
        cases runSeq v h2 rest with
        | none => rfl
        | some t =>
          obtain ⟨h3, rs⟩ := t
          simp [tagAll, valuesOf, hr]

theorem elemsLoop_runSeq (v : Validator) (element : Addr) :
    ∀ (xs : List GoValue) (h : Heap) (i : Nat) (acc : List GoValue),
      elemsLoop v element h xs i [] acc =
        (runSeq v h (xs.map (fun x => (element, x)))).map
          (fun t => (t.1, tagAll i t.2, acc ++ valuesOf t.2))
  | [], h, i, acc => by simp [elemsLoop, runSeq, tagAll, valuesOf]
  | x :: rest, h, i, acc => by
    simp only [elemsLoop, runSeq, List.map_cons]
    cases hv : v h element x with
    | none => rfl
    | some p =>
      obtain ⟨h2, r⟩ := p
      cases hr : r.Valid with
      | true =>
        simp only [hr, if_true]
        rw [elemsLoop_runSeq v element rest h2 (i + 1) (acc ++ [r.Value])]
        cases runSeq v h2 (rest.map (fun x => (element, x))) with
        | none => rfl
        | some t =>
          obtain ⟨h3, rs⟩ := t
          simp [tagAll, valuesOf, hr]
      | false =>
        simp only [hr, Bool.false_eq_true, if_false, List.nil_append]
        rw [← List.append_nil (retag ("[" ++ toString i ++ "]") r.Errors),
          elemsLoop_append_errs,
          elemsLoop_runSeq v element rest h2 (i + 1) (acc ++ [GoValue.nil])]
        cases runSeq v h2 (rest.map (fun x => (element, x))) with
        | none => rfl
        | some t =>
          obtain ⟨h3, rs⟩ := t
          simp [tagAll, valuesOf, hr]

theorem tupleFixedLoop_runSeq_errs (v : Validator) (ps : List (Addr × GoValue))
    (h : Heap) (i : Nat) (es : List ValidationError) (acc : List GoValue) :
    tupleFixedLoop v h ps i es acc =
      (runSeq v h ps).map (fun t => (t.1, es ++ tagAll i t.2, acc ++ valuesOf t.2)) := by
  have h1 := tupleFixedLoop_append_errs v ps h i es [] acc
  rw [List.append_nil] at h1
  rw [h1, tupleFixedLoop_runSeq]
  cases runSeq v h ps with
  | none => rfl
  | some t =>
    obtain ⟨h3, rs⟩ := t
    simp

theorem elemsLoop_runSeq_errs (v : Validator) (element : Addr) (xs : List GoValue)
    (h : Heap) (i : Nat) (es : List ValidationError) (acc : List GoValue) :
    elemsLoop v element h xs i es acc =
      (runSeq v h (xs.map (fun x => (element, x)))).map
        (fun t => (t.1, es ++ tagAll i t.2, acc ++ valuesOf t.2)) := by
  have h1 := elemsLoop_append_errs v element xs h i es [] acc
  rw [List.append_nil] at h1
  rw [h1, elemsLoop_runSeq]
  cases runSeq v h (xs.map (fun x => (element, x))) with
  | none => rfl
  | some t =>
    obtain ⟨h3, rs⟩ := t
    simp

/-- C7: for every Tuple schema and present input: non-sequence inputs are
rejected with a single invalid_type error; with no rest schema, the
fixed positions are validated pairwise (stopping at the input length)
and a length mismatch contributes a leading invalid_type error; with a
rest schema, an input shorter than the fixed count contributes a leading
too_small error and every index beyond the fixed count is validated
against the rest schema; element errors are tagged [index] and every
error is aggregated into one failing outcome without short-circuiting
(the outcome is valid with the normalized elements only when no error
accumulated). -/
theorem c7_tuple
    (n : Nat) (h : Heap) (a : Addr) (node : Node) (elements : List Addr)
    (rest : Option Addr) (value : GoValue)
    (hnode : nodeAt h a = some node)
    (hkind : node.kind = SchemaKind.tupleK elements rest)
    (hpresent : value.isNil = false) :
    ((∀ xs, value ≠ GoValue.arrV xs) →
      validate (n + 1) h a value =
        some (h, singleError "expected tuple" value "invalid_type")) ∧
    (∀ xs, value = GoValue.arrV xs →
      (rest = none →
        validate (n + 1) h a value =
          (runSeq (validate n) h (elements.zip xs)).map (fun t =>
            (t.1, aggregate
              ((if xs.length ≠ elements.length then
                  [{ Field := "",
                     Message := "tuple must have exactly " ++ toString elements.length ++
                       " elements",
                     Value := value, Code := "invalid_type" }]
                else []) ++ tagAll 0 t.2)
              (GoValue.arrV (valuesOf t.2))))) ∧
      (∀ restSchema, rest = some restSchema →
        validate (n + 1) h a value =
          (runSeq (validate n) h (elements.zip xs)).bind (fun t =>
            (runSeq (validate n) t.1
                ((xs.drop elements.length).map (fun x => (restSchema, x)))).map (fun u =>
              (u.1, aggregate
                (((if xs.length < elements.length then
                    [{ Field := "",
                       Message := "tuple must have at least " ++ toString elements.length ++
                         " elements",
                       Value := value, Code := "too_small" }]
                  else []) ++ tagAll 0 t.2) ++ tagAll elements.length u.2)
                (GoValue.arrV (valuesOf t.2 ++ valuesOf u.2))))))) := by
  have huse : usesHandleNil node.kind = true := by rw [hkind]; rfl
  rw [validate_succ_present n h a node value hnode huse hpresent]
  constructor
  · intro hm
    cases value with
    | arrV xs => exact absurd rfl (hm xs)
    | nil => simp [validateKind, hkind]
    | boolV b => simp [validateKind, hkind]
    | intV i => simp [validateKind, hkind]
    | strV ss => simp [validateKind, hkind]
    | mapV m => simp [validateKind, hkind]
  · intro xs hxs
    subst hxs
    constructor
    · intro hrest
      subst hrest
      simp only [validateKind, hkind, List.append_nil]
      rw [tupleFixedLoop_runSeq_errs]
      cases runSeq (validate n) h (elements.zip xs) with
      | none => rfl
      | some t =>
        obtain ⟨h3, rs⟩ := t
        simp [finishSeq]
    · intro restSchema hrest
      subst hrest
      simp only [validateKind, hkind, List.nil_append]
      rw [tupleFixedLoop_runSeq_errs]
      cases hseq : runSeq (validate n) h (elements.zip xs) with
      | none => rfl
      | some t =>
        obtain ⟨h3, rs⟩ := t
        simp only [Option.map, Option.bind, List.nil_append]
        rw [elemsLoop_runSeq_errs]
        cases runSeq (validate n) h3 ((xs.drop elements.length).map (fun x => (restSchema, x))) with
        | none => rfl
        | some u =>
          obtain ⟨h4, us⟩ := u
          simp [finishSeq]

/-- Concrete instantiation of c7_tuple at Tuple(Literal("x")).Rest(Boolean())
validated against ["x", true]: the fixed element and one rest element are
validated and aggregated per the characterization. -/
theorem c7_witness :
    validate 2 tupleHeap 0 (GoValue.arrV [GoValue.strV "x", GoValue.boolV true]) =
      (runSeq (validate 1) tupleHeap
          ([1].zip [GoValue.strV "x", GoValue.boolV true])).bind (fun t =>
        (runSeq (validate 1) t.1
            (([GoValue.strV "x", GoValue.boolV true].drop 1).map
              (fun x => (2, x)))).map (fun u =>
          (u.1, aggregate
            (((if [GoValue.strV "x", GoValue.boolV true].length < 1 then
                [{ Field := "",
                   Message := "tuple must have at least " ++ toString 1 ++ " elements",
                   Value := GoValue.arrV [GoValue.strV "x", GoValue.boolV true],
                   Code := "too_small" }]
              else []) ++ tagAll 0 t.2) ++ tagAll 1 u.2)
            (GoValue.arrV (valuesOf t.2 ++ valuesOf u.2))))) := by
  have hthm := c7_tuple 1 tupleHeap 0
    { base := newBase, kind := SchemaKind.tupleK [1] (some 2) } [1] (some 2)
    (GoValue.arrV [GoValue.strV "x", GoValue.boolV true]) rfl rfl rfl
  exact ((hthm.2 _ rfl).2 2 rfl)

/-! ## C2: effective field map pipeline -/

/-- C2 counterexample: on Object({x}).DeepPartial() the source pipeline
marks the field schema optional even though partial was never set, while
the pipeline exactly as the claim words it (mark optional only when
partial is set) leaves it required: the claimed equality fails. -/
theorem c2_counterexample :
    (baseAt (getEffectiveFields deepPartialHeap deepPartialData).1 0).map
        BaseSchema.isOptional = some true ∧
    (baseAt (effectiveFieldsClaimC2 deepPartialHeap deepPartialData).1 0).map
        BaseSchema.isOptional = some false ∧
    deepPartialData.partialFlag = false ∧
    deepPartialData.deepPartialFlag = true := by
  exact ⟨rfl, rfl, rfl, rfl⟩

theorem getEffectiveFields_eq_spec (h : Heap) (d : ObjectData) :
    getEffectiveFields h d = effectiveFieldsSpec h d := by
  unfold getEffectiveFields effectiveFieldsSpec specOmitted
  cases hom : d.omitKeys with
  | nil =>
    cases hreq : d.required with
    | nil => simp [pickStep, omitStep, markOptionalStep, markRequiredStep, overlay, alNormalize]
    | cons k ks =>
      simp [pickStep, omitStep, markOptionalStep, markRequiredStep, overlay, alNormalize]
  | cons k2 ks2 =>
    cases hreq : d.required with
    | nil => simp [pickStep, omitStep, markOptionalStep, markRequiredStep, overlay, alNormalize]
    | cons k ks =>
      simp [pickStep, omitStep, markOptionalStep, markRequiredStep, overlay, alNormalize]

/-- C2 (amended: the mark-optional step runs when partial or deepPartial
is set): the effective field map computed at each validation call equals
the result of applying, in this fixed order, to the base field map:
overlay the merge target's fields (overwriting on key collision), overlay
the extend fields (overwriting), if pick is non-empty keep only the
picked names that exist (silently dropping missing names), remove the
omit names, mark every remaining field optional when partial or
deepPartial is set, and finally mark the required-directive names that
exist back to required — the required override winning last. -/
theorem c2_effective_fields (h : Heap) (d : ObjectData) :
    getEffectiveFields h d = effectiveFieldsSpec h d :=
  getEffectiveFields_eq_spec h d

/-! ## Heap and association-list infrastructure -/

theorem nodeAt_isSome_iff : ∀ (h : Heap) (a : Addr), (nodeAt h a).isSome ↔ a < h.length
  | [], a => by cases a <;> simp [nodeAt]
  | n :: rest, 0 => by simp [nodeAt]
  | n :: rest, Nat.succ a => by
    simp only [nodeAt, List.length_cons, Nat.succ_lt_succ_iff]
    exact nodeAt_isSome_iff rest a

theorem nodeAt_heapSet_self : ∀ (h : Heap) (a : Addr) (n : Node), a < h.length →
    nodeAt (heapSet h a n) a = some n
  | [], a, n, ha => by simp at ha
  | m :: rest, 0, n, ha => rfl
  | m :: rest, Nat.succ a, n, ha => by
    simp only [heapSet, nodeAt]
    exact nodeAt_heapSet_self rest a n (Nat.succ_lt_succ_iff.mp ha)

theorem nodeAt_heapSet_ne : ∀ (h : Heap) (a b : Addr) (n : Node), b ≠ a →
    nodeAt (heapSet h a n) b = nodeAt h b
  | [], a, b, n, hne => rfl
  | m :: rest, 0, 0, n, hne => absurd rfl hne
  | m :: rest, 0, Nat.succ b, n, hne => rfl
  | m :: rest, Nat.succ a, 0, n, hne => rfl
  | m :: rest, Nat.succ a, Nat.succ b, n, hne =>
    nodeAt_heapSet_ne rest a b n (fun he => hne (congrArg Nat.succ he))

theorem heapSet_length : ∀ (h : Heap) (a : Addr) (n : Node),
    (heapSet h a n).length = h.length
  | [], _, _ => rfl
  | m :: rest, 0, n => rfl
  | m :: rest, Nat.succ a, n => by
    simp only [heapSet, List.length_cons, heapSet_length rest a n]

theorem modifyBase_length (h : Heap) (a : Addr) (f : BaseSchema → BaseSchema) :
    (modifyBase h a f).length = h.length := by
  unfold modifyBase
  cases nodeAt h a with
  | none => rfl
  | some n => exact heapSet_length h a _

theorem nodeAt_modifyBase_self (h : Heap) (a : Addr) (f : BaseSchema → BaseSchema)
    (nd : Node) (hnd : nodeAt h a = some nd) :
    nodeAt (modifyBase h a f) a = some { nd with base := f nd.base } := by
  unfold modifyBase
  rw [hnd]
  exact nodeAt_heapSet_self h a _ ((nodeAt_isSome_iff h a).mp (by rw [hnd]; rfl))

theorem nodeAt_modifyBase_ne (h : Heap) (a b : Addr) (f : BaseSchema → BaseSchema)
    (hne : b ≠ a) : nodeAt (modifyBase h a f) b = nodeAt h b := by
  unfold modifyBase
  cases nodeAt h a with
  | none => rfl
  | some n => exact nodeAt_heapSet_ne h a b _ hne

theorem kindAt_modifyBase (h : Heap) (a b : Addr) (f : BaseSchema → BaseSchema) :
    kindAt (modifyBase h a f) b = kindAt h b := by
  by_cases hab : b = a
  · subst hab
    cases hnd : nodeAt h b with
    | none =>
      unfold kindAt modifyBase
      simp [hnd]
    | some nd =>
      unfold kindAt
      rw [hnd, nodeAt_modifyBase_self h b f nd hnd]
      rfl
  · unfold kindAt
    rw [nodeAt_modifyBase_ne h a b f hab]

theorem flagsAt_setOptionalAt_self (h : Heap) (a : Addr) (nd : Node)
    (hnd : nodeAt h a = some nd) :
    flagsAt (setOptionalAt h a) a = some (true, false) := by
  unfold flagsAt baseAt setOptionalAt
  rw [nodeAt_modifyBase_self h a _ nd hnd]
  rfl

theorem flagsAt_setOptionalAt_ne (h : Heap) (a b : Addr) (hne : b ≠ a) :
    flagsAt (setOptionalAt h a) b = flagsAt h b := by
  unfold flagsAt baseAt setOptionalAt
  rw [nodeAt_modifyBase_ne h a b _ hne]

theorem flagsAt_setRequiredAt_self (h : Heap) (a : Addr) (nd : Node)
    (hnd : nodeAt h a = some nd) :
    flagsAt (setRequiredAt h a) a = some (false, true) := by
  unfold flagsAt baseAt setRequiredAt
  rw [nodeAt_modifyBase_self h a _ nd hnd]
  rfl

theorem setOptionalAt_length (h : Heap) (a : Addr) :
    (setOptionalAt h a).length = h.length := modifyBase_length h a _

theorem setRequiredAt_length (h : Heap) (a : Addr) :
    (setRequiredAt h a).length = h.length := modifyBase_length h a _

theorem flagsAt_setOptionalAt_marked (h : Heap) (a b : Addr)
    (hm : flagsAt h a = some (true, false)) :
    flagsAt (setOptionalAt h b) a = some (true, false) := by
  by_cases hab : a = b
  · subst hab
    unfold flagsAt baseAt at hm ⊢
    cases hnd : nodeAt h a with
    | none => rw [hnd] at hm; simp at hm
    | some nd =>
      unfold setOptionalAt
      rw [nodeAt_modifyBase_self h a _ nd hnd]
      rfl
  · rw [flagsAt_setOptionalAt_ne h b a hab]
    exact hm

theorem mem_keys_alSet {α : Type} :
    ∀ (m : List (String × α)) (k : String) (v : α) (x : String),
      x ∈ (alSet m k v).map Prod.fst → x = k ∨ x ∈ m.map Prod.fst
  | [], k, v, x => by simp [alSet]
  | (k2, w) :: rest, k, v, x => by
    simp only [alSet]
    by_cases hk : k2 = k
    · subst hk
      intro hx
      rw [if_pos rfl] at hx
      simp only [List.map_cons, List.mem_cons] at hx ⊢
      tauto
    · simp only [hk, if_false, List.map_cons, List.mem_cons]
      intro hx
      rcases hx with hx | hx
      · right; simp [hx]
      · rcases mem_keys_alSet rest k v x hx with h1 | h1
        · left; exact h1
        · right; simp [h1]

theorem alSet_keysNodup {α : Type} :
    ∀ (m : List (String × α)) (k : String) (v : α),
      keysNodup m → keysNodup (alSet m k v)
  | [], k, v, hm => by simp [alSet, keysNodup]
  | (k2, w) :: rest, k, v, hm => by
    unfold keysNodup at hm ⊢
    simp only [List.map_cons, List.nodup_cons] at hm
    simp only [alSet]
    by_cases hk : k2 = k
    · simp only [hk, if_true, List.map_cons, List.nodup_cons]
      rw [← hk]
      exact hm
    · simp only [hk, if_false, List.map_cons, List.nodup_cons]
      constructor
      · intro hmem
        rcases mem_keys_alSet rest k v k2 hmem with h1 | h1
        · exact hk h1
        · exact hm.1 h1
      · exact alSet_keysNodup rest k v hm.2

theorem overlay_keysNodup (src : List (String × Addr)) :
    ∀ (dst : List (String × Addr)), keysNodup dst → keysNodup (overlay dst src) := by
  induction src with
  | nil => intro dst hd; exact hd
  | cons p rest ih =>
    intro dst hd
    unfold overlay at ih ⊢
    simp only [List.foldl_cons]
    exact ih (alSet dst p.1 p.2) (alSet_keysNodup dst p.1 p.2 hd)

theorem keysNodup_nil {α : Type} : keysNodup ([] : List (String × α)) := by
  simp [keysNodup]

theorem alRemove_keysNodup {α : Type} (m : List (String × α)) (k : String)
    (hm : keysNodup m) : keysNodup (alRemove m k) := by
  unfold keysNodup at hm ⊢
  unfold alRemove
  exact ((List.filter_sublist m).map Prod.fst).nodup hm

theorem alGet_alSet_self {α : Type} :
    ∀ (m : List (String × α)) (k : String) (v : α), alGet (alSet m k v) k = some v
  | [], k, v => by simp [alSet, alGet]
  | (k2, w) :: rest, k, v => by
    simp only [alSet]
    by_cases hk : k2 = k
    · simp [hk, alGet]
    · simp only [hk, if_false, alGet]
      exact alGet_alSet_self rest k v

theorem alSet_self {α : Type} :
    ∀ (m : List (String × α)) (k : String) (v : α), alGet m k = some v → alSet m k v = m
  | [], k, v, hv => by simp [alGet] at hv
  | (k2, w) :: rest, k, v, hv => by
    simp only [alGet] at hv
    simp only [alSet]
    by_cases hk : k2 = k
    · rw [if_pos hk] at hv
      rw [if_pos hk]
      cases hv
      rfl
    · rw [if_neg hk] at hv
      rw [if_neg hk, alSet_self rest k v hv]

theorem alGet_of_mem_keysNodup {α : Type} :
    ∀ (m : List (String × α)) (k : String) (v : α),
      keysNodup m → (k, v) ∈ m → alGet m k = some v
  | [], k, v, _, hmem => by simp at hmem
  | (k2, w) :: rest, k, v, hnd, hmem => by
    unfold keysNodup at hnd
    simp only [List.map_cons, List.nodup_cons] at hnd
    simp only [alGet]
    rcases List.mem_cons.mp hmem with h1 | h1
    · have hk : k = k2 := congrArg Prod.fst h1
      have hw : v = w := congrArg Prod.snd h1
      rw [if_pos hk.symm, ← hw]
    · by_cases hk : k2 = k
      · exfalso
        apply hnd.1
        rw [hk]
        exact List.mem_map_of_mem Prod.fst h1
      · rw [if_neg hk]
        exact alGet_of_mem_keysNodup rest k v hnd.2 h1

/-! ## C3: effective-field derivation mutates shared nodes -/

theorem kindAt_setOptionalAt (h : Heap) (a b : Addr) :
    kindAt (setOptionalAt h a) b = kindAt h b := kindAt_modifyBase h a b _

theorem kindAt_setRequiredAt (h : Heap) (a b : Addr) :
    kindAt (setRequiredAt h a) b = kindAt h b := kindAt_modifyBase h a b _

theorem pickFold_keysNodup (m : List (String × Addr)) :
    ∀ (names : List String) (acc : List (String × Addr)), keysNodup acc →
      keysNodup (names.foldl (fun acc key =>
        match alGet m key with
        | some schema => alSet acc key schema
        | none => acc) acc)
  | [], acc, hacc => hacc
  | key :: rest, acc, hacc => by
    simp only [List.foldl_cons]
    cases hg : alGet m key with
    | none =>
      simp only [hg]
      exact pickFold_keysNodup m rest acc hacc
    | some schema =>
      simp only [hg]
      exact pickFold_keysNodup m rest _ (alSet_keysNodup acc key schema hacc)

theorem pickStep_keysNodup (m : List (String × Addr)) (names : List String) :
    keysNodup (pickStep m names) :=
  pickFold_keysNodup m names [] keysNodup_nil

theorem omitStep_keysNodup :
    ∀ (names : List String) (m : List (String × Addr)),
      keysNodup m → keysNodup (omitStep m names)
  | [], m, hm => hm
  | key :: rest, m, hm => by
    simp only [omitStep, List.foldl_cons]
    exact omitStep_keysNodup rest (alRemove m key) (alRemove_keysNodup m key hm)

theorem specOmitted_keysNodup (h : Heap) (d : ObjectData) :
    keysNodup (specOmitted h d) := by
  have hbase : keysNodup (alNormalize d.fields) :=
    overlay_keysNodup d.fields [] keysNodup_nil
  simp only [specOmitted]
  apply omitStep_keysNodup
  cases hmg : d.merge <;> cases hex : d.extend <;>
    by_cases hpk : d.pick.isEmpty = true <;>
    simp only [hmg, hex, hpk, if_true, if_false, Bool.false_eq_true] <;>
    first
      | exact pickStep_keysNodup _ _
      | exact hbase
      | exact overlay_keysNodup _ _ hbase
      | exact overlay_keysNodup _ _ (overlay_keysNodup _ _ hbase)

theorem pairFold_fst :
    ∀ (l : List (String × Addr)) (st : Heap × List (String × Addr)),
      (l.foldl (fun (acc : Heap × List (String × Addr)) p =>
        (setOptionalAt acc.1 p.2, alSet acc.2 p.1 p.2)) st).1 =
        l.foldl (fun hh p => setOptionalAt hh p.2) st.1
  | [], st => rfl
  | p :: rest, st => by
    simp only [List.foldl_cons]
    exact pairFold_fst rest _

theorem pairFold_snd :
    ∀ (l : List (String × Addr)) (st : Heap × List (String × Addr)),
      (∀ p ∈ l, alGet st.2 p.1 = some p.2) →
      (l.foldl (fun (acc : Heap × List (String × Addr)) p =>
        (setOptionalAt acc.1 p.2, alSet acc.2 p.1 p.2)) st).2 = st.2
  | [], st, _ => rfl
  | p :: rest, st, hp => by
    simp only [List.foldl_cons]
    have hset : alSet st.2 p.1 p.2 = st.2 :=
      alSet_self _ _ _ (hp p (List.mem_cons_self p rest))
    have hrec := pairFold_snd rest (setOptionalAt st.1 p.2, alSet st.2 p.1 p.2)
      (fun q hq => by
        simp only [hset]
        exact hp q (List.mem_cons_of_mem p hq))
    simp only [hset] at hrec ⊢
    exact hrec

theorem foldOpt_length :
    ∀ (l : List (String × Addr)) (h0 : Heap),
      (l.foldl (fun hh p => setOptionalAt hh p.2) h0).length = h0.length
  | [], h0 => rfl
  | p :: rest, h0 => by
    simp only [List.foldl_cons]
    rw [foldOpt_length rest _, setOptionalAt_length]

theorem foldOpt_kindAt :
    ∀ (l : List (String × Addr)) (h0 : Heap) (b : Addr),
      kindAt (l.foldl (fun hh p => setOptionalAt hh p.2) h0) b = kindAt h0 b
  | [], h0, b => rfl
  | p :: rest, h0, b => by
    simp only [List.foldl_cons]
    rw [foldOpt_kindAt rest _ b, kindAt_setOptionalAt]

theorem foldOpt_preserves_marked :
    ∀ (l : List (String × Addr)) (h0 : Heap) (a : Addr),
      flagsAt h0 a = some (true, false) →
      flagsAt (l.foldl (fun hh p => setOptionalAt hh p.2) h0) a = some (true, false)
  | [], h0, a, hm => hm
  | p :: rest, h0, a, hm => by
    simp only [List.foldl_cons]
    exact foldOpt_preserves_marked rest _ a (flagsAt_setOptionalAt_marked h0 a p.2 hm)

theorem foldOpt_marks :
    ∀ (l : List (String × Addr)) (h0 : Heap) (a : Addr),
      (∃ k, (k, a) ∈ l) → (nodeAt h0 a).isSome = true →
      flagsAt (l.foldl (fun hh p => setOptionalAt hh p.2) h0) a = some (true, false)
  | [], h0, a, hmem, _ => by
    obtain ⟨k, hk⟩ := hmem
    simp at hk
  | p :: rest, h0, a, hmem, hsome => by
    obtain ⟨k, hk⟩ := hmem
    simp only [List.foldl_cons]
    rcases List.mem_cons.mp hk with h1 | h1
    · have ha : a = p.2 := congrArg Prod.snd h1
      obtain ⟨nd, hnd⟩ := Option.isSome_iff_exists.mp hsome
      apply foldOpt_preserves_marked
      rw [ha]
      exact flagsAt_setOptionalAt_self h0 p.2 nd (ha ▸ hnd)
    · apply foldOpt_marks rest _ a ⟨k, h1⟩
      rw [nodeAt_isSome_iff, setOptionalAt_length]
      exact (nodeAt_isSome_iff h0 a).mp hsome

/-- C3: deriving an Object schema's effective field map is not
side-effect-free.  (1) Optional() and Required() mutate the target node
in place, flipping its modality flags, at the same address (all other
nodes untouched).  (2) When partial or deepPartial is set (and no
required override follows), getEffectiveFields marks every remaining
field's schema node optional in the returned heap — same addresses, same
kinds, flags flipped.  (3) A required-fields name that resolves to a
field causes a Required() call on that node.  (4) Concretely, a single
Validate call on a Partial object permanently marks the shared field
schema node optional, visibly to another object schema referencing it:
the plain object rejects an empty map before, and accepts it after. -/
theorem c3_effective_fields_mutate
    :
    (∀ (h : Heap) (a : Addr) (nd : Node), nodeAt h a = some nd →
      nodeAt (setOptionalAt h a) a =
        some { nd with base := { nd.base with isOptional := true, isRequired := false } } ∧
      ∀ b, b ≠ a → nodeAt (setOptionalAt h a) b = nodeAt h b) ∧
    (∀ (h : Heap) (a : Addr) (nd : Node), nodeAt h a = some nd →
      nodeAt (setRequiredAt h a) a =
        some { nd with base := { nd.base with isRequired := true, isOptional := false } } ∧
      ∀ b, b ≠ a → nodeAt (setRequiredAt h a) b = nodeAt h b) ∧
    (∀ (h : Heap) (d : ObjectData), (d.partialFlag || d.deepPartialFlag) = true →
      d.required = [] →
      ∀ p, p ∈ (getEffectiveFields h d).2 → (nodeAt h p.2).isSome = true →
        flagsAt (getEffectiveFields h d).1 p.2 = some (true, false) ∧
        kindAt (getEffectiveFields h d).1 p.2 = kindAt h p.2) ∧
    (∀ (h : Heap) (d : ObjectData) (k : String) (fa : Addr),
      d.required = [k] → (d.partialFlag || d.deepPartialFlag) = false →
      alGet (getEffectiveFields h d).2 k = some fa → (nodeAt h fa).isSome = true →
      flagsAt (getEffectiveFields h d).1 fa = some (false, true)) ∧
    (validate 2 partialDemoHeap 1 (GoValue.mapV []) =
        some (partialDemoHeap,
          { Valid := false,
            Errors := [{ Field := "x", Message := "field is required",
                         Value := GoValue.nil, Code := "required" }],
            Value := GoValue.nil }) ∧
      validate 2 partialDemoHeap 0 (GoValue.mapV []) =
        some (partialDemoAfter, validResult (GoValue.mapV [])) ∧
      flagsAt partialDemoAfter 2 = some (true, false) ∧
      validate 2 partialDemoAfter 1 (GoValue.mapV []) =
        some (partialDemoAfter, validResult (GoValue.mapV []))) := by
  refine ⟨?_, ?_, ?_, ?_, rfl, rfl, rfl, rfl⟩
  · intro h a nd hnd
    exact ⟨nodeAt_modifyBase_self h a _ nd hnd,
      fun b hb => nodeAt_modifyBase_ne h a b _ hb⟩
  · intro h a nd hnd
    exact ⟨nodeAt_modifyBase_self h a _ nd hnd,
      fun b hb => nodeAt_modifyBase_ne h a b _ hb⟩
  · intro h d hpart hreq p hp hsome
    rw [getEffectiveFields_eq_spec] at hp ⊢
    simp only [effectiveFieldsSpec, hreq, hpart, if_true, markRequiredStep,
      List.foldl_nil] at hp ⊢
    have hnd := specOmitted_keysNodup h d
    have hsnd : (markOptionalStep h (specOmitted h d)).2 = specOmitted h d := by
      unfold markOptionalStep
      exact pairFold_snd _ _ (fun q hq => alGet_of_mem_keysNodup _ _ _ hnd hq)
    have hfst : (markOptionalStep h (specOmitted h d)).1 =
        (specOmitted h d).foldl (fun hh p => setOptionalAt hh p.2) h := by
      unfold markOptionalStep
      exact pairFold_fst _ _
    rw [hsnd] at hp
    rw [hfst]
    constructor
    · exact foldOpt_marks _ _ _ ⟨p.1, by simpa using hp⟩ hsome
    · exact foldOpt_kindAt _ _ _
  · intro h d k fa hreq hnopart hget hsome
    rw [getEffectiveFields_eq_spec] at hget ⊢
    simp only [effectiveFieldsSpec, hreq, hnopart, if_false, Bool.false_eq_true,
      markRequiredStep, List.foldl_cons, List.foldl_nil] at hget ⊢
    cases halg : alGet (specOmitted h d) k with
    | none =>
      simp only [halg] at hget
      exact Option.noConfusion hget
    | some schema =>
      simp only [halg] at hget ⊢
      rw [alGet_alSet_self] at hget
      obtain ⟨nd, hnd⟩ := Option.isSome_iff_exists.mp hsome
      cases hget
      exact flagsAt_setRequiredAt_self h fa nd hnd

/-- Concrete instantiation of c3_effective_fields_mutate: deriving the
partial object's effective fields marks the shared field schema node at
address 2 optional in the returned heap, with its kind unchanged. -/
theorem c3_witness :
    flagsAt (getEffectiveFields partialDemoHeap partialDemoData).1 2 = some (true, false) ∧
    kindAt (getEffectiveFields partialDemoHeap partialDemoData).1 2 =
      kindAt partialDemoHeap 2 := by
  have hmem : (("x", 2) : String × Addr) ∈ (getEffectiveFields partialDemoHeap partialDemoData).2 := by
    show (("x", 2) : String × Addr) ∈ [("x", 2)]
    exact List.mem_singleton.mpr rfl
  exact c3_effective_fields_mutate.2.2.1 partialDemoHeap partialDemoData rfl rfl
    ("x", 2) hmem rfl

/-! ## Object loop characterizations -/

theorem objectFieldsLoop_runSeq (v : Validator) (objMap : List (String × GoValue)) :
    ∀ (fields : List (String × Addr)) (h : Heap) (errs : List ValidationError)
      (obj : List (String × GoValue)),
      objectFieldsLoop v objMap h fields errs obj =
        (runSeq v h (fieldPairs objMap fields)).map
          (fun t => (t.1, errs ++ taggedFieldErrs fields t.2, storedFields fields t.2 obj))
  | [], h, errs, obj => by simp [objectFieldsLoop, runSeq, fieldPairs, taggedFieldErrs, storedFields]
  | (k, fa) :: rest, h, errs, obj => by
    simp only [objectFieldsLoop, fieldPairs, runSeq]
    cases hv : v h fa (match alGet objMap k with | some fv => fv | none => GoValue.nil) with
    | none => rfl
    | some p =>
      obtain ⟨h2, r⟩ := p
      cases hr : r.Valid with
      | true =>
        cases hnil : r.Value.isNil with
        | true =>
          simp only [hr, hnil, if_true]
          rw [objectFieldsLoop_runSeq v objMap rest h2 errs obj]
          cases runSeq v h2 (fieldPairs objMap rest) with
          | none => rfl
          | some t =>
            obtain ⟨h3, rs⟩ := t
            simp [taggedFieldErrs, storedFields, hr, hnil]
        | false =>
          simp only [hr, hnil, if_true, Bool.false_eq_true, if_false]
          rw [objectFieldsLoop_runSeq v objMap rest h2 errs (alSet obj k r.Value)]
          cases runSeq v h2 (fieldPairs objMap rest) with
          | none => rfl
          | some t =>
            obtain ⟨h3, rs⟩ := t
            simp [taggedFieldErrs, storedFields, hr, hnil]
      | false =>
        simp only [hr, Bool.false_eq_true, if_false]
        rw [objectFieldsLoop_runSeq v objMap rest h2 (errs ++ retag k r.Errors) obj]
        cases runSeq v h2 (fieldPairs objMap rest) with
        | none => rfl
        | some t =>
          obtain ⟨h3, rs⟩ := t
          simp [taggedFieldErrs, storedFields, hr]

theorem objectUnknownLoop_strict (v : Validator) (d : ObjectData)
    (fields : List (String × Addr)) (hstrict : d.strict = true) :
    ∀ (m : List (String × GoValue)) (h : Heap) (errs : List ValidationError)
      (obj : List (String × GoValue)),
      objectUnknownLoop v d fields h m errs obj =
        some (h, errs ++ strictErrs fields m, obj)
  | [], h, errs, obj => by simp [objectUnknownLoop, strictErrs, unknownEntries]
  | (q, qv) :: rest, h, errs, obj => by
    simp only [objectUnknownLoop]
    cases hknown : alHas fields q with
    | true =>
      simp only [hknown, if_true]
      rw [objectUnknownLoop_strict v d fields hstrict rest h errs obj]
      simp [strictErrs, unknownEntries, hknown]
    | false =>
      simp only [hknown, Bool.false_eq_true, if_false, hstrict, if_true]
      rw [objectUnknownLoop_strict v d fields hstrict rest h _ obj]
      simp [strictErrs, unknownEntries, hknown]

theorem objectUnknownLoop_plain (v : Validator) (d : ObjectData)
    (fields : List (String × Addr)) (hstrict : d.strict = false)
    (hca : d.catchall = none) :
    ∀ (m : List (String × GoValue)) (h : Heap) (errs : List ValidationError)
      (obj : List (String × GoValue)),
      objectUnknownLoop v d fields h m errs obj =
        some (h, errs,
          if d.passthrough then passthroughStored obj (unknownEntries fields m) else obj)
  | [], h, errs, obj => by
    simp [objectUnknownLoop, unknownEntries, passthroughStored]
  | (q, qv) :: rest, h, errs, obj => by
    simp only [objectUnknownLoop]
    cases hknown : alHas fields q with
    | true =>
      simp only [hknown, if_true]
      rw [objectUnknownLoop_plain v d fields hstrict hca rest h errs obj]
      simp [unknownEntries, hknown]
    | false =>
      simp only [hknown, Bool.false_eq_true, if_false, hstrict, hca]
      cases hpass : d.passthrough with
      | true =>
        simp only [hpass, if_true]
        rw [objectUnknownLoop_plain v d fields hstrict hca rest h errs (alSet obj q qv)]
        simp [unknownEntries, hknown, hpass, passthroughStored]
      | false =>
        simp only [hpass, Bool.false_eq_true, if_false]
        rw [objectUnknownLoop_plain v d fields hstrict hca rest h errs obj]
        simp [unknownEntries, hknown, hpass]

theorem objectUnknownLoop_catchall (v : Validator) (d : ObjectData)
    (fields : List (String × Addr)) (ca : Addr) (hstrict : d.strict = false)
    (hca : d.catchall = some ca) :
    ∀ (m : List (String × GoValue)) (h : Heap) (errs : List ValidationError)
      (obj : List (String × GoValue)),
      objectUnknownLoop v d fields h m errs obj =
        (runSeq v h (catchallPairs ca (unknownEntries fields m))).map
          (fun t => (t.1, errs ++ taggedUnknownErrs (unknownEntries fields m) t.2,
            catchallStored (unknownEntries fields m) t.2 obj))
  | [], h, errs, obj => by
    simp [objectUnknownLoop, unknownEntries, catchallPairs, runSeq, taggedUnknownErrs,
      catchallStored]
  | (q, qv) :: rest, h, errs, obj => by
    simp only [objectUnknownLoop]
    cases hknown : alHas fields q with
    | true =>
      simp only [hknown, if_true]
      rw [objectUnknownLoop_catchall v d fields ca hstrict hca rest h errs obj]
      simp [unknownEntries, hknown]
    | false =>
      simp only [hknown, Bool.false_eq_true, if_false, hstrict, hca]
      have hentry : unknownEntries fields ((q, qv) :: rest) =
          (q, qv) :: unknownEntries fields rest := by
        simp [unknownEntries, hknown]
      rw [hentry]
      simp only [catchallPairs, runSeq]
      cases hv : v h ca qv with
      | none => rfl
      | some p =>
        obtain ⟨h2, r⟩ := p
        cases hr : r.Valid with
        | true =>
          simp only [hr, if_true]
          rw [objectUnknownLoop_catchall v d fields ca hstrict hca rest h2 errs
            (alSet obj q r.Value)]
          cases runSeq v h2 (catchallPairs ca (unknownEntries fields rest)) with
          | none => rfl
          | some t =>
            obtain ⟨h3, rs⟩ := t
            simp [taggedUnknownErrs, catchallStored, hr]
        | false =>
          simp only [hr, Bool.false_eq_true, if_false]
          rw [objectUnknownLoop_catchall v d fields ca hstrict hca rest h2
            (errs ++ retag q r.Errors) obj]
          cases runSeq v h2 (catchallPairs ca (unknownEntries fields rest)) with
          | none => rfl
          | some t =>
            obtain ⟨h3, rs⟩ := t
            simp [taggedUnknownErrs, catchallStored, hr]

/-! ## C8: object validation aggregates every error -/

theorem aggregate_errors (errs : List ValidationError) (val : GoValue) :
    (aggregate errs val).Errors = errs := by
  cases errs <;> rfl

theorem aggregate_valid_iff (errs : List ValidationError) (val : GoValue) :
    ((aggregate errs val).Valid = true) ↔ (aggregate errs val).Errors = [] := by
  cases errs <;> simp [aggregate, validResult]

/-- C8: for every Object schema and present map input, validation never
stops at the first error: every effective field is validated (the walk
rs covers all of them in order) and the single failing outcome carries
the complete accumulated error list — the failing fields' re-tagged
errors, followed by one unrecognized_keys error per unknown key under
strict, or the catchall schema's re-tagged errors for unknown keys when
a catchall is set — and the outcome is valid exactly when that list is
empty. -/
theorem c8_object_error_aggregation
    (n : Nat) (h : Heap) (a : Addr) (node : Node) (d : ObjectData)
    (m : List (String × GoValue)) (h2 : Heap) (rs : List ValidationResult)
    (hnode : nodeAt h a = some node)
    (hkind : node.kind = SchemaKind.objectK d)
    (hseq : runSeq (validate n) (getEffectiveFields h d).1
      (fieldPairs (alNormalize m) (getEffectiveFields h d).2) = some (h2, rs)) :
    (d.strict = true →
      ∃ r, validate (n + 1) h a (GoValue.mapV m) = some (h2, r) ∧
        r.Errors = taggedFieldErrs (getEffectiveFields h d).2 rs ++
          strictErrs (getEffectiveFields h d).2 (alNormalize m) ∧
        (r.Valid = true ↔ r.Errors = [])) ∧
    (d.strict = false → d.catchall = none →
      ∃ r, validate (n + 1) h a (GoValue.mapV m) = some (h2, r) ∧
        r.Errors = taggedFieldErrs (getEffectiveFields h d).2 rs ∧
        (r.Valid = true ↔ r.Errors = [])) ∧
    (∀ ca us h3, d.strict = false → d.catchall = some ca →
      runSeq (validate n) h2
        (catchallPairs ca (unknownEntries (getEffectiveFields h d).2 (alNormalize m))) =
        some (h3, us) →
      ∃ r, validate (n + 1) h a (GoValue.mapV m) = some (h3, r) ∧
        r.Errors = taggedFieldErrs (getEffectiveFields h d).2 rs ++
          taggedUnknownErrs (unknownEntries (getEffectiveFields h d).2 (alNormalize m)) us ∧
        (r.Valid = true ↔ r.Errors = [])) := by
  have huse : usesHandleNil node.kind = true := by rw [hkind]; rfl
  rw [validate_succ_present n h a node (GoValue.mapV m) hnode huse rfl]
  simp only [validateKind, hkind, toObjMap]
  rw [objectFieldsLoop_runSeq, hseq]
  simp only [Option.map, Option.bind, List.nil_append]
  refine ⟨?_, ?_, ?_⟩
  · intro hstrict
    rw [objectUnknownLoop_strict (validate n) d _ hstrict]
    refine ⟨_, rfl, ?_, aggregate_valid_iff _ _⟩
    rw [aggregate_errors]
  · intro hstrict hca
    rw [objectUnknownLoop_plain (validate n) d _ hstrict hca]
    refine ⟨_, rfl, ?_, aggregate_valid_iff _ _⟩
    rw [aggregate_errors]
  · intro ca us h3 hstrict hca hcseq
    rw [objectUnknownLoop_catchall (validate n) d _ ca hstrict hca, hcseq]
    simp only [Option.map]
    refine ⟨_, rfl, ?_, aggregate_valid_iff _ _⟩
    rw [aggregate_errors]

/-- Concrete instantiation of c8_object_error_aggregation at the strict
object: a failing field and an unknown key both appear in one failing
outcome. -/
theorem c8_witness :
    ∃ r, validate 2 strictDemoHeap 0
        (GoValue.mapV [("x", GoValue.intV 7), ("y", GoValue.intV 9)]) =
      some (strictDemoHeap, r) ∧
      r.Errors = taggedFieldErrs (getEffectiveFields strictDemoHeap strictDemoData).2
          [singleError "expected boolean" (GoValue.intV 7) "invalid_type"] ++
        strictErrs (getEffectiveFields strictDemoHeap strictDemoData).2
          (alNormalize [("x", GoValue.intV 7), ("y", GoValue.intV 9)]) ∧
      (r.Valid = true ↔ r.Errors = []) := by
  have hthm := c8_object_error_aggregation 1 strictDemoHeap 0
    { base := newBase, kind := SchemaKind.objectK strictDemoData } strictDemoData
    [("x", GoValue.intV 7), ("y", GoValue.intV 9)] strictDemoHeap
    [singleError "expected boolean" (GoValue.intV 7) "invalid_type"]
    rfl rfl (by rfl)
  exact hthm.1 rfl

/-! ## C10: nil normalized values are omitted from the object output -/

theorem alGet_alSet_ne {α : Type} :
    ∀ (m : List (String × α)) (k q : String) (v : α), q ≠ k →
      alGet (alSet m q v) k = alGet m k
  | [], k, q, v, hq => by simp [alSet, alGet, hq]
  | (k2, w) :: rest, k, q, v, hq => by
    simp only [alSet]
    by_cases hk : k2 = q
    · subst hk
      rw [if_pos rfl]
      simp only [alGet]
      rw [if_neg hq, if_neg hq]
    · rw [if_neg hk]
      simp only [alGet]
      by_cases hk2 : k2 = k
      · rw [if_pos hk2, if_pos hk2]
      · rw [if_neg hk2, if_neg hk2]
        exact alGet_alSet_ne rest k q v hq

theorem mem_zip_left {α β : Type} :
    ∀ {l1 : List α} {l2 : List β} {p : α × β}, p ∈ l1.zip l2 → p.1 ∈ l1
  | [], _, p, hp => by simp at hp
  | a :: l1, [], p, hp => by simp at hp
  | a :: l1, b :: l2, p, hp => by
    rcases List.mem_cons.mp hp with h1 | h1
    · simp [h1]
    · exact List.mem_cons_of_mem _ (mem_zip_left h1)

theorem storedFields_not_mem :
    ∀ (fs : List (String × Addr)) (rs : List ValidationResult)
      (obj : List (String × GoValue)) (k : String),
      k ∉ fs.map Prod.fst → alGet (storedFields fs rs obj) k = alGet obj k
  | [], _, obj, k, _ => rfl
  | _ :: _, [], obj, k, _ => rfl
  | (k0, a0) :: fs', r0 :: rs', obj, k, hk => by
    simp only [List.map_cons, List.mem_cons, not_or] at hk
    simp only [storedFields]
    rw [storedFields_not_mem fs' rs' _ k hk.2]
    split_ifs with h1 h2
    · rfl
    · exact alGet_alSet_ne obj k k0 r0.Value (fun he => hk.1 he.symm)
    · rfl

theorem storedFields_spec :
    ∀ (fs : List (String × Addr)) (rs : List ValidationResult)
      (obj : List (String × GoValue)) (kf : String × Addr) (rk : ValidationResult),
      keysNodup fs → (kf, rk) ∈ fs.zip rs → rk.Valid = true →
      (rk.Value.isNil = true → alGet (storedFields fs rs obj) kf.1 = alGet obj kf.1) ∧
      (rk.Value.isNil = false → alGet (storedFields fs rs obj) kf.1 = some rk.Value)
  | [], rs, obj, kf, rk, _, hmem, _ => by simp at hmem
  | _ :: _, [], obj, kf, rk, _, hmem, _ => by simp at hmem
  | (k0, a0) :: fs', r0 :: rs', obj, kf, rk, hnd, hmem, hvalid => by
    unfold keysNodup at hnd
    simp only [List.map_cons, List.nodup_cons] at hnd
    simp only [List.zip_cons_cons] at hmem
    rcases List.mem_cons.mp hmem with h1 | h1
    · have hkf : kf = (k0, a0) := congrArg Prod.fst h1
      have hrk : rk = r0 := congrArg Prod.snd h1
      subst hkf
      subst hrk
      simp only [storedFields]
      constructor
      · intro hnil
        rw [hvalid, hnil]
        simp only [if_true]
        exact storedFields_not_mem fs' rs' obj k0 hnd.1
      · intro hnil
        rw [hvalid, hnil]
        simp only [if_true, Bool.false_eq_true, if_false]
        rw [storedFields_not_mem fs' rs' _ k0 hnd.1]
        exact alGet_alSet_self obj k0 rk.Value
    · have hkmem : kf.1 ∈ fs'.map Prod.fst :=
        List.mem_map_of_mem Prod.fst (mem_zip_left h1)
      have hne : k0 ≠ kf.1 := fun he => hnd.1 (he ▸ hkmem)
      simp only [storedFields]
      have hih := storedFields_spec fs' rs'
        (if r0.Valid then (if r0.Value.isNil then obj else alSet obj k0 r0.Value) else obj)
        kf rk hnd.2 h1 hvalid
      have hobj : alGet
          (if r0.Valid then (if r0.Value.isNil then obj else alSet obj k0 r0.Value) else obj)
          kf.1 = alGet obj kf.1 := by
        split_ifs with hv1 hv2
        · rfl
        · exact alGet_alSet_ne obj kf.1 k0 r0.Value hne
        · rfl
      rw [hobj] at hih
      exact hih

theorem objectUnknownLoop_preserves_declared (v : Validator) (d : ObjectData)
    (fields : List (String × Addr)) :
    ∀ (m : List (String × GoValue)) (h : Heap) (errs : List ValidationError)
      (obj : List (String × GoValue)) (h3 : Heap) (errs3 : List ValidationError)
      (obj3 : List (String × GoValue)),
      objectUnknownLoop v d fields h m errs obj = some (h3, errs3, obj3) →
      ∀ k, alHas fields k = true → alGet obj3 k = alGet obj k
  | [], h, errs, obj, h3, errs3, obj3, heq, k, hk => by
    simp only [objectUnknownLoop, Option.some.injEq, Prod.mk.injEq] at heq
    rw [← heq.2.2]
  | (q, qv) :: rest, h, errs, obj, h3, errs3, obj3, heq, k, hk => by
    simp only [objectUnknownLoop] at heq
    have hqk : alHas fields q = false → q ≠ k := by
      intro hq he
      rw [he, hk] at hq
      exact Bool.noConfusion hq
    cases hknown : alHas fields q with
    | true =>
      simp only [hknown, if_true] at heq
      exact objectUnknownLoop_preserves_declared v d fields rest h errs obj h3 errs3 obj3 heq k hk
    | false =>
      simp only [hknown, Bool.false_eq_true, if_false] at heq
      cases hstrict : d.strict with
      | true =>
        simp only [hstrict, if_true] at heq
        exact objectUnknownLoop_preserves_declared v d fields rest h _ obj h3 errs3 obj3 heq k hk
      | false =>
        simp only [hstrict, Bool.false_eq_true, if_false] at heq
        cases hca : d.catchall with
        | some ca =>
          simp only [hca] at heq
          cases hv : v h ca qv with
          | none =>
            simp only [hv] at heq
            exact Option.noConfusion heq
          | some p =>
            obtain ⟨h2, r⟩ := p
            simp only [hv] at heq
            cases hr : r.Valid with
            | true =>
              simp only [hr, if_true] at heq
              rw [objectUnknownLoop_preserves_declared v d fields rest h2 errs
                (alSet obj q r.Value) h3 errs3 obj3 heq k hk]
              exact alGet_alSet_ne obj k q r.Value (hqk hknown)
            | false =>
              simp only [hr, Bool.false_eq_true, if_false] at heq
              exact objectUnknownLoop_preserves_declared v d fields rest h2 _ obj h3 errs3
                obj3 heq k hk
        | none =>
          simp only [hca] at heq
          cases hpass : d.passthrough with
          | true =>
            simp only [hpass, if_true] at heq
            rw [objectUnknownLoop_preserves_declared v d fields rest h errs
              (alSet obj q qv) h3 errs3 obj3 heq k hk]
            exact alGet_alSet_ne obj k q qv (hqk hknown)
          | false =>
            simp only [hpass, Bool.false_eq_true, if_false] at heq
            exact objectUnknownLoop_preserves_declared v d fields rest h errs obj h3 errs3
              obj3 heq k hk

theorem foldOptPair_snd_keysNodup :
    ∀ (l : List (String × Addr)) (st : Heap × List (String × Addr)),
      keysNodup st.2 →
      keysNodup ((l.foldl (fun (acc : Heap × List (String × Addr)) p =>
        (setOptionalAt acc.1 p.2, alSet acc.2 p.1 p.2)) st)).2
  | [], st, hst => hst
  | p :: rest, st, hst => by
    simp only [List.foldl_cons]
    exact foldOptPair_snd_keysNodup rest _ (alSet_keysNodup st.2 p.1 p.2 hst)

theorem foldReqPair_snd_keysNodup :
    ∀ (names : List String) (st : Heap × List (String × Addr)),
      keysNodup st.2 →
      keysNodup ((names.foldl (fun (acc : Heap × List (String × Addr)) key =>
        match alGet acc.2 key with
        | some schema => (setRequiredAt acc.1 schema, alSet acc.2 key schema)
        | none => acc) st)).2
  | [], st, hst => hst
  | key :: rest, st, hst => by
    simp only [List.foldl_cons]
    cases hg : alGet st.2 key with
    | none =>
      simp only [hg]
      exact foldReqPair_snd_keysNodup rest st hst
    | some schema =>
      simp only [hg]
      exact foldReqPair_snd_keysNodup rest _ (alSet_keysNodup st.2 key schema hst)

theorem getEffectiveFields_snd_keysNodup (h : Heap) (d : ObjectData) :
    keysNodup (getEffectiveFields h d).2 := by
  rw [getEffectiveFields_eq_spec]
  simp only [effectiveFieldsSpec, markRequiredStep]
  by_cases hp : (d.partialFlag || d.deepPartialFlag) = true
  · simp only [hp, if_true]
    exact foldReqPair_snd_keysNodup d.required _
      (foldOptPair_snd_keysNodup _ _ (specOmitted_keysNodup h d))
  · simp only [hp, if_false]
    exact foldReqPair_snd_keysNodup d.required _ (specOmitted_keysNodup h d)

/-- C10: for every Object schema validating a present map input, when a
declared field's validation succeeds with a nil normalized value (as for
an optional field absent from the input), the valid outcome's map holds
no entry for that field; a field validated to a non-nil value is stored
under its name. -/
theorem c10_nil_fields_omitted
    (n : Nat) (h : Heap) (a : Addr) (node : Node) (d : ObjectData)
    (m : List (String × GoValue)) (h2 hF : Heap) (rs : List ValidationResult)
    (r : ValidationResult)
    (hnode : nodeAt h a = some node)
    (hkind : node.kind = SchemaKind.objectK d)
    (hseq : runSeq (validate n) (getEffectiveFields h d).1
      (fieldPairs (alNormalize m) (getEffectiveFields h d).2) = some (h2, rs))
    (hval : validate (n + 1) h a (GoValue.mapV m) = some (hF, r))
    (hvalid : r.Valid = true) :
    ∃ obj, r.Value = GoValue.mapV obj ∧
      ∀ kf rk, (kf, rk) ∈ (getEffectiveFields h d).2.zip rs → rk.Valid = true →
        (rk.Value.isNil = true → alGet obj kf.1 = none) ∧
        (rk.Value.isNil = false → alGet obj kf.1 = some rk.Value) := by
  have huse : usesHandleNil node.kind = true := by rw [hkind]; rfl
  rw [validate_succ_present n h a node (GoValue.mapV m) hnode huse rfl] at hval
  simp only [validateKind, hkind, toObjMap] at hval
  rw [objectFieldsLoop_runSeq, hseq] at hval
  simp only [Option.map, Option.bind, List.nil_append] at hval
  cases hu : objectUnknownLoop (validate n) d (getEffectiveFields h d).2 h2 (alNormalize m)
      (taggedFieldErrs (getEffectiveFields h d).2 rs)
      (storedFields (getEffectiveFields h d).2 rs []) with
  | none =>
    rw [hu] at hval
    simp only [finishObj, Option.map] at hval
    exact Option.noConfusion hval
  | some t =>
    obtain ⟨h3, errs3, obj3⟩ := t
    rw [hu] at hval
    simp only [finishObj, Option.map, Option.some.injEq] at hval
    have hr : r = aggregate errs3 (GoValue.mapV obj3) := (congrArg Prod.snd hval).symm
    cases herrs : errs3 with
    | cons e es =>
      rw [hr, herrs] at hvalid
      simp [aggregate] at hvalid
    | nil =>
      rw [hr, herrs]
      refine ⟨obj3, rfl, ?_⟩
      intro kf rk hzip hrkvalid
      have hnd := getEffectiveFields_snd_keysNodup h d
      have hkfmem : kf ∈ (getEffectiveFields h d).2 := mem_zip_left hzip
      have hhas : alHas (getEffectiveFields h d).2 kf.1 = true := by
        unfold alHas
        rw [alGet_of_mem_keysNodup _ _ kf.2 hnd (by simpa using hkfmem)]
        rfl
      have hpres := objectUnknownLoop_preserves_declared (validate n) d
        (getEffectiveFields h d).2 (alNormalize m) h2
        (taggedFieldErrs (getEffectiveFields h d).2 rs)
        (storedFields (getEffectiveFields h d).2 rs []) h3 errs3 obj3 hu kf.1 hhas
      rw [hpres]
      have hspec := storedFields_spec (getEffectiveFields h d).2 rs [] kf rk hnd hzip hrkvalid
      exact hspec

/-- Concrete instantiation of c10_nil_fields_omitted: with x present and
the optional y absent, the output map stores x and has no entry for y. -/
theorem c10_witness :
    ∃ obj, (validResult (GoValue.mapV [("x", GoValue.boolV true)])).Value =
        GoValue.mapV obj ∧
      ∀ kf rk,
        (kf, rk) ∈ (getEffectiveFields optionalDemoHeap optionalDemoData).2.zip
          [validResult (GoValue.boolV true), validResult GoValue.nil] →
        rk.Valid = true →
        (rk.Value.isNil = true → alGet obj kf.1 = none) ∧
        (rk.Value.isNil = false → alGet obj kf.1 = some rk.Value) := by
  exact c10_nil_fields_omitted 1 optionalDemoHeap 0
    { base := newBase, kind := SchemaKind.objectK optionalDemoData } optionalDemoData
    [("x", GoValue.boolV true)] optionalDemoHeap optionalDemoHeap
    [validResult (GoValue.boolV true), validResult GoValue.nil]
    (validResult (GoValue.mapV [("x", GoValue.boolV true)]))
    rfl rfl (by rfl) (by rfl) rfl

/-! ## C9: the lazy constructor function runs at most once -/

theorem lazyInv_nodeAt :
    ∀ (h : Heap) (a : Addr) (node : Node), lazyInv h = true → nodeAt h a = some node →
      lazyCountOk node.kind = true
  | [], _, _, _, hn => Option.noConfusion hn
  | m :: rest, 0, node, hinv, hn => by
    simp only [nodeAt, Option.some.injEq] at hn
    simp only [lazyInv, List.all_cons, Bool.and_eq_true] at hinv
    exact hn ▸ hinv.1
  | m :: rest, Nat.succ a, node, hinv, hn => by
    simp only [nodeAt] at hn
    simp only [lazyInv, List.all_cons, Bool.and_eq_true] at hinv
    exact lazyInv_nodeAt rest a node hinv.2 hn

theorem lazyInv_heapSet :
    ∀ (h : Heap) (a : Addr) (node : Node), lazyInv h = true → lazyCountOk node.kind = true →
      lazyInv (heapSet h a node) = true
  | [], _, _, hinv, _ => hinv
  | m :: rest, 0, node, hinv, hok => by
    simp only [lazyInv, heapSet, List.all_cons, Bool.and_eq_true] at hinv ⊢
    exact ⟨hok, hinv.2⟩
  | m :: rest, Nat.succ a, node, hinv, hok => by
    simp only [lazyInv, heapSet, List.all_cons, Bool.and_eq_true] at hinv ⊢
    exact ⟨hinv.1, lazyInv_heapSet rest a node hinv.2 hok⟩

theorem lazyInv_modifyBase (h : Heap) (a : Addr) (f : BaseSchema → BaseSchema)
    (hinv : lazyInv h = true) : lazyInv (modifyBase h a f) = true := by
  unfold modifyBase
  cases hn : nodeAt h a with
  | none => exact hinv
  | some n => exact lazyInv_heapSet h a _ hinv (lazyInv_nodeAt h a n hinv hn)

theorem lazyInv_setOptionalAt (h : Heap) (a : Addr) (hinv : lazyInv h = true) :
    lazyInv (setOptionalAt h a) = true := by
  unfold setOptionalAt
  exact lazyInv_modifyBase h a _ hinv

theorem lazyInv_setRequiredAt (h : Heap) (a : Addr) (hinv : lazyInv h = true) :
    lazyInv (setRequiredAt h a) = true := by
  unfold setRequiredAt
  exact lazyInv_modifyBase h a _ hinv

theorem foldOptPair_inv :
    ∀ (l : List (String × Addr)) (st : Heap × List (String × Addr)),
      lazyInv st.1 = true →
      lazyInv ((l.foldl (fun (acc : Heap × List (String × Addr)) p =>
        (setOptionalAt acc.1 p.2, alSet acc.2 p.1 p.2)) st)).1 = true
  | [], _, hst => hst
  | p :: rest, st, hst => by
    simp only [List.foldl_cons]
    exact foldOptPair_inv rest _ (lazyInv_setOptionalAt st.1 p.2 hst)

theorem foldReqPair_inv :
    ∀ (names : List String) (st : Heap × List (String × Addr)),
      lazyInv st.1 = true →
      lazyInv ((names.foldl (fun (acc : Heap × List (String × Addr)) key =>
        match alGet acc.2 key with
        | some schema => (setRequiredAt acc.1 schema, alSet acc.2 key schema)
        | none => acc) st)).1 = true
  | [], _, hst => hst
  | key :: rest, st, hst => by
    simp only [List.foldl_cons]
    cases hg : alGet st.2 key with
    | none =>
      simp only [hg]
      exact foldReqPair_inv rest st hst
    | some schema =>
      simp only [hg]
      exact foldReqPair_inv rest _ (lazyInv_setRequiredAt st.1 schema hst)

theorem lazyInv_getEffectiveFields (h : Heap) (d : ObjectData) (hinv : lazyInv h = true) :
    lazyInv (getEffectiveFields h d).1 = true := by
  rw [getEffectiveFields_eq_spec]
  simp only [effectiveFieldsSpec, markRequiredStep]
  by_cases hp : (d.partialFlag || d.deepPartialFlag) = true
  · simp only [hp, if_true]
    exact foldReqPair_inv d.required _ (foldOptPair_inv _ _ hinv)
  · simp only [hp, if_false]
    exact foldReqPair_inv d.required _ hinv

theorem runSeq_inv (v : Validator) (hv : PreservesLazyInv v) :
    ∀ (ps : List (Addr × GoValue)) (h h2 : Heap) (rs : List ValidationResult),
      lazyInv h = true → runSeq v h ps = some (h2, rs) → lazyInv h2 = true
  | [], h, h2, rs, hinv, heq => by
    simp only [runSeq, Option.some.injEq, Prod.mk.injEq] at heq
    exact heq.1 ▸ hinv
  | (a, x) :: rest, h, h2, rs, hinv, heq => by
    simp only [runSeq] at heq
    cases hva : v h a x with
    | none => simp only [hva] at heq; exact Option.noConfusion heq
    | some p =>
      obtain ⟨h3, r⟩ := p
      simp only [hva] at heq
      cases hrs : runSeq v h3 rest with
      | none => simp only [hrs] at heq; exact Option.noConfusion heq
      | some q =>
        obtain ⟨h4, rs2⟩ := q
        simp only [hrs, Option.some.injEq, Prod.mk.injEq] at heq
        exact heq.1 ▸ runSeq_inv v hv rest h3 h4 rs2 (hv h a x h3 r hinv hva) hrs

theorem unionLoop_inv (v : Validator) (pv : GoValue) (hv : PreservesLazyInv v) :
    ∀ (schemas : List Addr) (h : Heap) (i : Nat) (acc : List ValidationError)
      (h2 : Heap) (res : Option ValidationResult) (acc2 : List ValidationError),
      lazyInv h = true → unionLoop v pv h schemas i acc = some (h2, res, acc2) →
      lazyInv h2 = true
  | [], h, i, acc, h2, res, acc2, hinv, heq => by
    simp only [unionLoop, Option.some.injEq, Prod.mk.injEq] at heq
    exact heq.1 ▸ hinv
  | a :: rest, h, i, acc, h2, res, acc2, hinv, heq => by
    simp only [unionLoop] at heq
    cases hva : v h a pv with
    | none => simp only [hva] at heq; exact Option.noConfusion heq
    | some p =>
      obtain ⟨h3, r⟩ := p
      simp only [hva] at heq
      have hinv3 := hv h a pv h3 r hinv hva
      cases hr : r.Valid with
      | true =>
        simp only [hr, if_true, Option.some.injEq, Prod.mk.injEq] at heq
        exact heq.1 ▸ hinv3
      | false =>
        simp only [hr, Bool.false_eq_true, if_false] at heq
        exact unionLoop_inv v pv hv rest h3 (i + 1) _ h2 res acc2 hinv3 heq

theorem objectFieldsLoop_inv (v : Validator) (hv : PreservesLazyInv v)
    (objMap : List (String × GoValue)) (fields : List (String × Addr)) (h : Heap)
    (errs : List ValidationError) (obj : List (String × GoValue))
    (h2 : Heap) (errs2 : List ValidationError) (obj2 : List (String × GoValue))
    (hinv : lazyInv h = true)
    (heq : objectFieldsLoop v objMap h fields errs obj = some (h2, errs2, obj2)) :
    lazyInv h2 = true := by
  rw [objectFieldsLoop_runSeq] at heq
  cases hrs : runSeq v h (fieldPairs objMap fields) with
  | none => rw [hrs] at heq; exact Option.noConfusion heq
  | some t =>
    obtain ⟨h3, rs⟩ := t
    rw [hrs] at heq
    simp only [Option.map, Option.some.injEq, Prod.mk.injEq] at heq
    exact heq.1 ▸ runSeq_inv v hv (fieldPairs objMap fields) h h3 rs hinv hrs

theorem objectUnknownLoop_inv (v : Validator) (d : ObjectData)
    (fields : List (String × Addr)) (hv : PreservesLazyInv v) :
    ∀ (m : List (String × GoValue)) (h : Heap) (errs : List ValidationError)
      (obj : List (String × GoValue)) (h2 : Heap) (errs2 : List ValidationError)
      (obj2 : List (String × GoValue)),
      lazyInv h = true →
      objectUnknownLoop v d fields h m errs obj = some (h2, errs2, obj2) →
      lazyInv h2 = true
  | [], h, errs, obj, h2, errs2, obj2, hinv, heq => by
    simp only [objectUnknownLoop, Option.some.injEq, Prod.mk.injEq] at heq
    exact heq.1 ▸ hinv
  | (q, qv) :: rest, h, errs, obj, h2, errs2, obj2, hinv, heq => by
    simp only [objectUnknownLoop] at heq
    cases hknown : alHas fields q with
    | true =>
      simp only [hknown, if_true] at heq
      exact objectUnknownLoop_inv v d fields hv rest h errs obj h2 errs2 obj2 hinv heq
    | false =>
      simp only [hknown, Bool.false_eq_true, if_false] at heq
      cases hstrict : d.strict with
      | true =>
        simp only [hstrict, if_true] at heq
        exact objectUnknownLoop_inv v d fields hv rest h _ obj h2 errs2 obj2 hinv heq
      | false =>
        simp only [hstrict, Bool.false_eq_true, if_false] at heq
        cases hca : d.catchall with
        | some ca =>
          simp only [hca] at heq
          cases hva : v h ca qv with
          | none =>
            simp only [hva] at heq
            exact Option.noConfusion heq
          | some p =>
            obtain ⟨h3, r⟩ := p
            simp only [hva] at heq
            have hinv3 := hv h ca qv h3 r hinv hva
            cases hr : r.Valid with
            | true =>
              simp only [hr, if_true] at heq
              exact objectUnknownLoop_inv v d fields hv rest h3 errs _ h2 errs2 obj2 hinv3 heq
            | false =>
              simp only [hr, Bool.false_eq_true, if_false] at heq
              exact objectUnknownLoop_inv v d fields hv rest h3 _ obj h2 errs2 obj2 hinv3 heq
        | none =>
          simp only [hca] at heq
          cases hpass : d.passthrough with
          | true =>
            simp only [hpass, if_true] at heq
            exact objectUnknownLoop_inv v d fields hv rest h errs _ h2 errs2 obj2 hinv heq
          | false =>
            simp only [hpass, Bool.false_eq_true, if_false] at heq
            exact objectUnknownLoop_inv v d fields hv rest h errs obj h2 errs2 obj2 hinv heq

theorem object_loops_inv (v : Validator) (hv : PreservesLazyInv v) (d : ObjectData)
    (objMap : List (String × GoValue)) (fields : List (String × Addr)) (h : Heap)
    (errs : List ValidationError) (obj : List (String × GoValue)) (h2 : Heap)
    (r : ValidationResult) (hinv : lazyInv h = true)
    (heq : finishObj ((objectFieldsLoop v objMap h fields errs obj).bind
      (fun t => objectUnknownLoop v d fields t.1 objMap t.2.1 t.2.2)) = some (h2, r)) :
    lazyInv h2 = true := by
  cases ho : objectFieldsLoop v objMap h fields errs obj with
  | none =>
    rw [ho] at heq
    simp only [Option.bind, finishObj, Option.map] at heq
    exact Option.noConfusion heq
  | some t =>
    obtain ⟨h3, errs3, obj3⟩ := t
    rw [ho] at heq
    have hinv3 := objectFieldsLoop_inv v hv objMap fields h errs obj h3 errs3 obj3 hinv ho
    cases hu : objectUnknownLoop v d fields h3 objMap errs3 obj3 with
    | none =>
      simp only [Option.bind, hu, finishObj, Option.map] at heq
      exact Option.noConfusion heq
    | some u =>
      obtain ⟨h4, errs4, obj4⟩ := u
      simp only [Option.bind, hu, finishObj, Option.map, Option.some.injEq,
        Prod.mk.injEq] at heq
      exact heq.1 ▸ objectUnknownLoop_inv v d fields hv objMap h3 errs3 obj3 h4 errs4 obj4
        hinv3 hu

theorem elems_finish_inv (v : Validator) (hv : PreservesLazyInv v) (element : Addr)
    (h : Heap) (xs : List GoValue) (i : Nat) (errs : List ValidationError)
    (acc : List GoValue) (h2 : Heap) (r : ValidationResult) (hinv : lazyInv h = true)
    (heq : finishSeq (elemsLoop v element h xs i errs acc) = some (h2, r)) :
    lazyInv h2 = true := by
  rw [elemsLoop_runSeq_errs] at heq
  cases hrs : runSeq v h (xs.map (fun x => (element, x))) with
  | none => rw [hrs] at heq; exact Option.noConfusion heq
  | some t =>
    obtain ⟨h3, rs⟩ := t
    rw [hrs] at heq
    simp only [Option.map, finishSeq, Option.some.injEq, Prod.mk.injEq] at heq
    exact heq.1 ▸ runSeq_inv v hv (xs.map (fun x => (element, x))) h h3 rs hinv hrs

theorem tuple_finish_inv (v : Validator) (hv : PreservesLazyInv v)
    (h : Heap) (ps : List (Addr × GoValue)) (i : Nat) (errs : List ValidationError)
    (acc : List GoValue) (h2 : Heap) (r : ValidationResult) (hinv : lazyInv h = true)
    (heq : finishSeq (tupleFixedLoop v h ps i errs acc) = some (h2, r)) :
    lazyInv h2 = true := by
  rw [tupleFixedLoop_runSeq_errs] at heq
  cases hrs : runSeq v h ps with
  | none => rw [hrs] at heq; exact Option.noConfusion heq
  | some t =>
    obtain ⟨h3, rs⟩ := t
    rw [hrs] at heq
    simp only [Option.map, finishSeq, Option.some.injEq, Prod.mk.injEq] at heq
    exact heq.1 ▸ runSeq_inv v hv ps h h3 rs hinv hrs

theorem tuple_rest_finish_inv (v : Validator) (hv : PreservesLazyInv v)
    (h : Heap) (ps : List (Addr × GoValue)) (i : Nat) (errs : List ValidationError)
    (acc : List GoValue) (restSchema : Addr) (xs : List GoValue) (j : Nat)
    (h2 : Heap) (r : ValidationResult) (hinv : lazyInv h = true)
    (heq : finishSeq ((tupleFixedLoop v h ps i errs acc).bind
      (fun t => elemsLoop v restSchema t.1 xs j t.2.1 t.2.2)) = some (h2, r)) :
    lazyInv h2 = true := by
  cases hf : tupleFixedLoop v h ps i errs acc with
  | none =>
    rw [hf] at heq
    simp only [Option.bind, finishSeq, Option.map] at heq
    exact Option.noConfusion heq
  | some t =>
    obtain ⟨h3, errs3, acc3⟩ := t
    rw [hf] at heq
    simp only [Option.bind] at heq
    have hinv3 : lazyInv h3 = true := by
      have hfin : finishSeq (tupleFixedLoop v h ps i errs acc) =
          some (h3, aggregate errs3 (GoValue.arrV acc3)) := by
        rw [hf]; rfl
      exact tuple_finish_inv v hv h ps i errs acc h3 _ hinv hfin
    exact elems_finish_inv v hv restSchema h3 xs j errs3 acc3 h2 r hinv3 heq

theorem validateKind_inv (v : Validator) (hv : PreservesLazyInv v)
    (h : Heap) (a : Addr) (node : Node) (pv value : GoValue) (h2 : Heap)
    (r : ValidationResult) (hinv : lazyInv h = true) (hnode : nodeAt h a = some node)
    (heq : validateKind v h a node pv value = some (h2, r)) : lazyInv h2 = true := by
  cases hk : node.kind with
  | objectK d =>
    simp only [validateKind, hk] at heq
    cases hm : toObjMap pv with
    | none =>
      simp only [hm, Option.some.injEq, Prod.mk.injEq] at heq
      exact heq.1 ▸ hinv
    | some objMap =>
      simp only [hm] at heq
      exact object_loops_inv v hv d objMap (getEffectiveFields h d).2
        (getEffectiveFields h d).1 [] [] h2 r (lazyInv_getEffectiveFields h d hinv) heq
  | arrayK element minL maxL lenC ne =>
    simp only [validateKind, hk] at heq
    cases pv with
    | arrV xs => exact elems_finish_inv v hv element h xs 0 _ [] h2 r hinv heq
    | nil =>
      simp only [Option.some.injEq, Prod.mk.injEq] at heq
      exact heq.1 ▸ hinv
    | boolV b =>
      simp only [Option.some.injEq, Prod.mk.injEq] at heq
      exact heq.1 ▸ hinv
    | intV i =>
      simp only [Option.some.injEq, Prod.mk.injEq] at heq
      exact heq.1 ▸ hinv
    | strV s =>
      simp only [Option.some.injEq, Prod.mk.injEq] at heq
      exact heq.1 ▸ hinv
    | mapV m =>
      simp only [Option.some.injEq, Prod.mk.injEq] at heq
      exact heq.1 ▸ hinv
  | tupleK elements rest =>
    simp only [validateKind, hk] at heq
    cases pv with
    | arrV xs =>
      cases hrest : rest with
      | some restSchema =>
        simp only [hrest] at heq
        exact tuple_rest_finish_inv v hv h (elements.zip xs) 0 _ [] restSchema
          (xs.drop elements.length) elements.length h2 r hinv heq
      | none =>
        simp only [hrest] at heq
        exact tuple_finish_inv v hv h (elements.zip xs) 0 _ [] h2 r hinv heq
    | nil =>
      simp only [Option.some.injEq, Prod.mk.injEq] at heq
      exact heq.1 ▸ hinv
    | boolV b =>
      simp only [Option.some.injEq, Prod.mk.injEq] at heq
      exact heq.1 ▸ hinv
    | intV i =>
      simp only [Option.some.injEq, Prod.mk.injEq] at heq
      exact heq.1 ▸ hinv
    | strV s =>
      simp only [Option.some.injEq, Prod.mk.injEq] at heq
      exact heq.1 ▸ hinv
    | mapV m =>
      simp only [Option.some.injEq, Prod.mk.injEq] at heq
      exact heq.1 ▸ hinv
  | unionK schemas =>
    simp only [validateKind, hk] at heq
    cases hu : unionLoop v pv h schemas 0 [] with
    | none =>
      simp only [hu] at heq
      exact Option.noConfusion heq
    | some t =>
      obtain ⟨h3, ores, acc⟩ := t
      have hinv3 := unionLoop_inv v pv hv schemas h 0 [] h3 ores acc hinv hu
      cases ores with
      | some r2 =>
        simp only [hu, Option.some.injEq, Prod.mk.injEq] at heq
        exact heq.1 ▸ hinv3
      | none =>
        simp only [hu, Option.some.injEq, Prod.mk.injEq] at heq
        exact heq.1 ▸ hinv3
  | dunionK disc options =>
    simp only [validateKind, hk] at heq
    cases hm : toObjMap pv with
    | none =>
      simp only [hm, Option.some.injEq, Prod.mk.injEq] at heq
      exact heq.1 ▸ hinv
    | some objMap =>
      simp only [hm] at heq
      cases hg : alGet objMap disc with
      | none =>
        simp only [hg, Option.some.injEq, Prod.mk.injEq] at heq
        exact heq.1 ▸ hinv
      | some dv =>
        simp only [hg] at heq
        cases hs : alGet options (goFormat dv) with
        | none =>
          simp only [hs, Option.some.injEq, Prod.mk.injEq] at heq
          exact heq.1 ▸ hinv
        | some schema =>
          simp only [hs] at heq
          exact hv h schema pv h2 r hinv heq
  | literalK lit =>
    simp only [validateKind, hk] at heq
    cases hd : deepEqual pv lit with
    | true =>
      simp only [hd, if_true, Option.some.injEq, Prod.mk.injEq] at heq
      exact heq.1 ▸ hinv
    | false =>
      simp only [hd, Bool.false_eq_true, if_false, Option.some.injEq, Prod.mk.injEq] at heq
      exact heq.1 ▸ hinv
  | enumK values =>
    simp only [validateKind, hk] at heq
    cases hd : enumHas values pv with
    | true =>
      simp only [hd, if_true, Option.some.injEq, Prod.mk.injEq] at heq
      exact heq.1 ▸ hinv
    | false =>
      simp only [hd, Bool.false_eq_true, if_false, Option.some.injEq, Prod.mk.injEq] at heq
      exact heq.1 ▸ hinv
  | nullableK inner =>
    simp only [validateKind, hk] at heq
    cases hnil : value.isNil with
    | true =>
      simp only [hnil, if_true, Option.some.injEq, Prod.mk.injEq] at heq
      exact heq.1 ▸ hinv
    | false =>
      simp only [hnil, Bool.false_eq_true, if_false] at heq
      exact hv h inner value h2 r hinv heq
  | anyK =>
    simp only [validateKind, hk, Option.some.injEq, Prod.mk.injEq] at heq
    exact heq.1 ▸ hinv
  | unknownK =>
    simp only [validateKind, hk, Option.some.injEq, Prod.mk.injEq] at heq
    exact heq.1 ▸ hinv
  | voidK =>
    simp only [validateKind, hk, Option.some.injEq, Prod.mk.injEq] at heq
    exact heq.1 ▸ hinv
  | neverK =>
    simp only [validateKind, hk, Option.some.injEq, Prod.mk.injEq] at heq
    exact heq.1 ▸ hinv
  | booleanK =>
    simp only [validateKind, hk] at heq
    rcases hc : convertToBoolean pv with ⟨b, ok⟩
    cases ok with
    | false =>
      simp only [hc, Option.some.injEq, Prod.mk.injEq] at heq
      exact heq.1 ▸ hinv
    | true =>
      simp only [hc, Option.some.injEq, Prod.mk.injEq] at heq
      exact heq.1 ▸ hinv
  | lazyK fn cached cnt =>
    simp only [validateKind, hk] at heq
    cases cached with
    | some c => exact hv h c value h2 r hinv heq
    | none =>
      have hok : lazyCountOk node.kind = true := lazyInv_nodeAt h a node hinv hnode
      rw [hk] at hok
      have hcnt : cnt = 0 := by simpa [lazyCountOk] using hok
      have hinv2 : lazyInv (heapSet h a
          { base := node.base, kind := SchemaKind.lazyK fn (some fn) (cnt + 1) }) = true := by
        apply lazyInv_heapSet h a _ hinv
        simp [lazyCountOk, hcnt]
      exact hv _ fn value h2 r hinv2 heq

theorem validate_preserves_lazyInv :
    ∀ (n : Nat) (h : Heap) (a : Addr) (value : GoValue) (h2 : Heap) (r : ValidationResult),
      lazyInv h = true → validate n h a value = some (h2, r) → lazyInv h2 = true
  | 0, _, _, _, _, _, _, heq => Option.noConfusion heq
  | Nat.succ n, h, a, value, h2, r, hinv, heq => by
    have hv : PreservesLazyInv (validate n) :=
      fun hh aa vv hh2 rr => validate_preserves_lazyInv n hh aa vv hh2 rr
    simp only [validate] at heq
    cases hnode : nodeAt h a with
    | none =>
      simp only [hnode] at heq
      exact Option.noConfusion heq
    | some node =>
      simp only [hnode] at heq
      cases hk : node.kind <;> simp only [hk] at heq <;>
        first
        | (simp only [Option.some.injEq, Prod.mk.injEq] at heq
           exact heq.1 ▸ hinv)
        | (cases hnil : value.isNil with
           | true =>
             simp only [hnil, if_true, Option.some.injEq, Prod.mk.injEq] at heq
             exact heq.1 ▸ hinv
           | false =>
             simp only [hnil, Bool.false_eq_true, if_false] at heq
             exact hv h _ value h2 r hinv heq)
        | (cases hhn : (handleNil node.base value).2.1 with
           | true =>
             simp only [hhn, if_true, Option.some.injEq, Prod.mk.injEq] at heq
             exact heq.1 ▸ hinv
           | false =>
             simp only [hhn, Bool.false_eq_true, if_false] at heq
             exact validateKind_inv (validate n) hv h a node _ value h2 r hinv hnode heq)

theorem validate_lazy_first (n : Nat) (h : Heap) (a : Addr) (node : Node)
    (fn : Addr) (cnt : Nat) (value : GoValue)
    (hnode : nodeAt h a = some node)
    (hkind : node.kind = SchemaKind.lazyK fn none cnt)
    (hpresent : value.isNil = false) :
    validate (n + 1) h a value =
      validate n (heapSet h a
        { base := node.base, kind := SchemaKind.lazyK fn (some fn) (cnt + 1) }) fn value := by
  rw [validate_succ_present n h a node value hnode (by rw [hkind]; rfl) hpresent]
  simp only [validateKind, hkind]

theorem validate_lazy_cached (n : Nat) (h : Heap) (a : Addr) (node : Node)
    (fn c : Addr) (cnt : Nat) (value : GoValue)
    (hnode : nodeAt h a = some node)
    (hkind : node.kind = SchemaKind.lazyK fn (some c) cnt)
    (hpresent : value.isNil = false) :
    validate (n + 1) h a value = validate n h c value := by
  rw [validate_succ_present n h a node value hnode (by rw [hkind]; rfl) hpresent]
  simp only [validateKind, hkind]

/-- C9: the lazy constructor function is invoked at most once per schema
instance.  (1) Validation preserves the heap invariant that every lazy
node's constructor-call counter is 1 when its cache is populated and 0
before, so any validation — including recursive self-references — started
on a heap of never-or-once-constructed lazy nodes ends on one.  (2) The
first validation through an uncached lazy node invokes the constructor
exactly once, stores the constructed schema in the cache, and validates
the original value against it.  (3) Every validation through a cached
lazy node reuses the cached schema with the heap untouched, without
re-invoking the constructor. -/
theorem c9_lazy_at_most_once :
    (∀ (n : Nat) (h : Heap) (a : Addr) (value : GoValue) (h2 : Heap) (r : ValidationResult),
      lazyInv h = true → validate n h a value = some (h2, r) → lazyInv h2 = true) ∧
    (∀ (n : Nat) (h : Heap) (a : Addr) (node : Node) (fn : Addr) (cnt : Nat)
      (value : GoValue), nodeAt h a = some node →
      node.kind = SchemaKind.lazyK fn none cnt → value.isNil = false →
      validate (n + 1) h a value =
        validate n (heapSet h a
          { base := node.base, kind := SchemaKind.lazyK fn (some fn) (cnt + 1) }) fn value) ∧
    (∀ (n : Nat) (h : Heap) (a : Addr) (node : Node) (fn c : Addr) (cnt : Nat)
      (value : GoValue), nodeAt h a = some node →
      node.kind = SchemaKind.lazyK fn (some c) cnt → value.isNil = false →
      validate (n + 1) h a value = validate n h c value) :=
  ⟨fun n h a value h2 r => validate_preserves_lazyInv n h a value h2 r,
   fun n h a node fn cnt value hn hk hp => validate_lazy_first n h a node fn cnt value hn hk hp,
   fun n h a node fn c cnt value hn hk hp =>
     validate_lazy_cached n h a node fn c cnt value hn hk hp⟩

/-- Concrete instantiation of c9_lazy_at_most_once on a self-referential
lazy schema: the invariant holds before and after a depth-3 recursive
validation whose final heap shows the constructor ran exactly once, the
first use installs the cache, and a later use reuses it. -/
theorem c9_witness :
    lazyInv lazyDemoHeap = true ∧
    validate 8 lazyDemoHeap 0 lazyDemoValue = some (lazyDemoHeap2, validResult lazyDemoValue) ∧
    lazyInv lazyDemoHeap2 = true ∧
    validate 2 lazyDemoHeap 0 (GoValue.boolV true) =
      validate 1 lazyDemoHeap2 1 (GoValue.boolV true) ∧
    validate 2 lazyDemoHeap2 0 (GoValue.boolV true) =
      validate 1 lazyDemoHeap2 1 (GoValue.boolV true) :=
  ⟨rfl, rfl,
   c9_lazy_at_most_once.1 8 lazyDemoHeap 0 lazyDemoValue lazyDemoHeap2
     (validResult lazyDemoValue) rfl rfl,
   c9_lazy_at_most_once.2.1 1 lazyDemoHeap 0
     { base := newBase, kind := SchemaKind.lazyK 1 none 0 } 1 0 (GoValue.boolV true)
     rfl rfl rfl,
   c9_lazy_at_most_once.2.2 1 lazyDemoHeap2 0
     { base := newBase, kind := SchemaKind.lazyK 1 (some 1) 1 } 1 1 1 (GoValue.boolV true)
     rfl rfl rfl⟩

end God
